import Mathlib

/-!
Verification development for the live speech-to-text terminal client
(`live_stt.py`).  The program text is embedded shallowly: Python strings
become `List Char`, the regular expressions used by `clean_text` become
executable scanners over character lists, and the result-processing loop of
`main` becomes a fold over a list of recognition results.

Character classes model the ASCII fragment of Python's `re` classes
(`\s`, `\w`, `IGNORECASE`) and of `str.strip`/`str.lower`; all strings
appearing in the program and in the claims are ASCII.
-/

/-- ASCII model of Python's whitespace class `\s` (and of `str.strip`). -/
def isSpace (c : Char) : Bool :=
  c == ' ' || c == '\t' || c == '\n' || c == '\r' || c == '\x0b' || c == '\x0c'

/-- ASCII model of Python's word-character class `\w` (used for `\b`). -/
def isWordChar (c : Char) : Bool :=
  c.isAlpha || c.isDigit || c == '_'

/-- The punctuation set of the substitution `re.sub(r"\s+([,.;:!?])", r"\1", t)`. -/
def isPunct6 (c : Char) : Bool :=
  c == ',' || c == '.' || c == ';' || c == ':' || c == '!' || c == '?'

/-- The trailing class `[,.\s]` of `FILLER_RE`. -/
def isTrail (c : Char) : Bool :=
  c == ',' || c == '.' || isSpace c

/-- ASCII lowercasing, modelling `re.IGNORECASE` comparisons. -/
def asciiLower (c : Char) : Char :=
  if 'A' ≤ c && c ≤ 'Z' then Char.ofNat (c.toNat + 32) else c

/-- Case-insensitive comparison of a subject character `c` against a
(lowercase) pattern letter `ch`. -/
def lowEq (ch c : Char) : Bool :=
  asciiLower c == ch

/-- `\b` on the right of the matched core: the next character (if any) is not
a word character. -/
def boundaryAfter : List Char → Bool
  | [] => true
  | c :: _ => !isWordChar c

/-- Greedy match of `ch+\b` (at least `atLeast` repetitions of the pattern
letter `ch`, case-insensitively, followed by a word boundary), as the regex
engine resolves it: the maximal run of `ch` must be followed by a non-word
character or the end of input (shorter runs are still followed by `ch`, a
word character, so backtracking never helps).  Returns the remainder on
success. -/
def runThen (ch : Char) (atLeast : Nat) (l : List Char) : Option (List Char) :=
  let n := (l.takeWhile (lowEq ch)).length
  if atLeast ≤ n && boundaryAfter (l.drop n) then some (l.drop n) else none

/-- Regex alternation: take the first alternative's match if there is one,
otherwise try the second. -/
def orTry (a b : Option (List Char)) : Option (List Char) :=
  match a with
  | some r => some r
  | none => b

/-- After the literal `h` of `hmm+`: a literal `m` followed by `m+\b`. -/
def hmmTail : List Char → Option (List Char)
  | c2 :: cs2 => if asciiLower c2 == 'm' then runThen 'm' 1 cs2 else none
  | [] => none

/-- After the literal `e` of `erm+`: a literal `r` followed by `m+\b`. -/
def ermTail : List Char → Option (List Char)
  | c2 :: cs2 => if asciiLower c2 == 'r' then runThen 'm' 1 cs2 else none
  | [] => none

/-- Match of the core alternation `um+|uh+|hmm+|erm+|eh+` of
`FILLER_RE = re.compile(r"\b(?:um+|uh+|hmm+|erm+|eh+)\b[,.\s]*", re.IGNORECASE)`
at the head of the input (the left `\b` is checked by the caller), with the
alternatives tried in the regex's order.  Returns the remainder after the
core on success. -/
def matchCore : List Char → Option (List Char)
  | [] => none
  | c :: cs =>
    if asciiLower c == 'u' then orTry (runThen 'm' 1 cs) (runThen 'h' 1 cs)
    else if asciiLower c == 'h' then hmmTail cs
    else if asciiLower c == 'e' then orTry (ermTail cs) (runThen 'h' 1 cs)
    else none

/-- Full match of `FILLER_RE` at the head of the input: the core alternation
followed by the greedy trailing run `[,.\s]*`.  Returns the pair of
(a) whether the last consumed character is a word character (true exactly
when the trailing run is empty; the scanner needs this to track `\b` at the
resumption point) and (b) the remainder. -/
def matchFiller (l : List Char) : Option (Bool × List Char) :=
  match matchCore l with
  | none => none
  | some rest => some ((rest.takeWhile isTrail).isEmpty, rest.dropWhile isTrail)

/-- Fuelled left-to-right scanner implementing `FILLER_RE.sub("", t)`:
at every position whose predecessor is not a word character (i.e. where `\b`
can hold), try the pattern; on a match drop the matched text, otherwise copy
the character.  The fuel only serves structural termination and is
irrelevant once it is at least the length of the input. -/
def fillerScanF : Nat → Bool → List Char → List Char
  | 0, _, l => l
  | _ + 1, _, [] => []
  | fuel + 1, prevWord, c :: cs =>
    if prevWord then c :: fillerScanF fuel (isWordChar c) cs
    else
      match matchFiller (c :: cs) with
      | some (endsWord, rest) => fillerScanF fuel endsWord rest
      | none => c :: fillerScanF fuel (isWordChar c) cs

/-- `FILLER_RE.sub("", t)` (line 29 of `live_stt.py`). -/
def fillerSub (t : List Char) : List Char :=
  fillerScanF t.length false t

/-- `re.sub(r"\s+", " ", t)`: every maximal whitespace run becomes a single
space.  The flag records whether we are inside a run whose space has already
been emitted. -/
def collapseWsAux : Bool → List Char → List Char
  | _, [] => []
  | inRun, c :: cs =>
    if isSpace c then
      if inRun then collapseWsAux true cs else ' ' :: collapseWsAux true cs
    else c :: collapseWsAux false cs

/-- `re.sub(r"\s+", " ", t)` (part of line 30 of `live_stt.py`). -/
def collapseWs (l : List Char) : List Char :=
  collapseWsAux false l

/-- Removal of trailing whitespace (the right half of `str.strip`). -/
def stripRight : List Char → List Char
  | [] => []
  | c :: cs =>
    match stripRight cs with
    | [] => if isSpace c then [] else [c]
    | acc => c :: acc

/-- Python's `str.strip()`: remove leading and trailing whitespace. -/
def strip (l : List Char) : List Char :=
  stripRight (l.dropWhile isSpace)

/-- Whether the first non-whitespace character of the input exists and lies
in the punctuation set: this decides whether a whitespace character is part
of a `\s+([,.;:!?])` match. -/
def firstNonSpacePunct (l : List Char) : Bool :=
  match l.dropWhile isSpace with
  | p :: _ => isPunct6 p
  | [] => false

/-- `re.sub(r"\s+([,.;:!?])", r"\1", t)` (line 31 of `live_stt.py`): a
whitespace character is deleted exactly when the next non-whitespace
character exists and is in the punctuation set (the greedy `\s+` matches a
maximal whitespace run, which is kept iff it is not followed by one of the
six punctuation marks). -/
def fixPunct : List Char → List Char
  | [] => []
  | c :: cs =>
    if isSpace c && firstNonSpacePunct cs then fixPunct cs
    else c :: fixPunct cs

/-- `clean_text` (lines 26-32 of `live_stt.py`), with the global setting
`REMOVE_FILLERS` as an explicit parameter:

    def clean_text(t: str) -> str:
        if REMOVE_FILLERS:
            t = FILLER_RE.sub("", t)
        t = re.sub(r"\s+", " ", t.strip())
        t = re.sub(r"\s+([,.;:!?])", r"\1", t)
        return t.strip()
-/
def clean_text (removeFillers : Bool) (t : List Char) : List Char :=
  let t1 := if removeFillers then fillerSub t else t
  let t2 := collapseWs (strip t1)
  let t3 := fixPunct t2
  strip t3

/-- The compiled-in setting `REMOVE_FILLERS = True` (line 16). -/
def REMOVE_FILLERS : Bool := true

/-- The compiled-in setting `SOFT_WRAP = True` (line 17). -/
def SOFT_WRAP : Bool := true

/-- Commit of a finalized recognition text into the committed transcript
(lines 126 and 128-132 of `live_stt.py`):

    txt = clean_text(alt.transcript)
    if result.is_final:
        if txt:
            committed_text = (committed_text + " " + txt).strip() if committed_text else txt
-/
def commitFinal (removeFillers : Bool) (committed raw : List Char) : List Char :=
  let txt := clean_text removeFillers raw
  if txt.isEmpty then committed
  else if committed.isEmpty then txt
  else strip (committed ++ ' ' :: txt)

/-- Python's `text.split(" ")`: split on every single space, keeping empty
pieces. -/
def splitSpaces : List Char → List (List Char)
  | [] => [[]]
  | c :: cs =>
    if c == ' ' then [] :: splitSpaces cs
    else
      match splitSpaces cs with
      | w :: ws => (c :: w) :: ws
      | [] => [[c]]

/-- The greedy word-wrap loop of `render_live` (lines 47-58):

    out_lines = []; line = ""
    for word in text.split(" "):
        if not line: line = word
        elif len(line) + 1 + len(word) <= width: line += " " + word
        else: out_lines.append(line); line = word
    if line: out_lines.append(line)
-/
def wrapLoop (width : Nat) (outLines : List (List Char)) (line : List Char) :
    List (List Char) → List (List Char)
  | [] => if line.isEmpty then outLines else outLines ++ [line]
  | w :: ws =>
    if line.isEmpty then wrapLoop width outLines w ws
    else if line.length + 1 + w.length ≤ width then wrapLoop width outLines (line ++ ' ' :: w) ws
    else wrapLoop width (outLines ++ [line]) w ws

/-- `"\n".join(out_lines)` over the wrapped lines of `text`. -/
def wrapText (width : Nat) (text : List Char) : List Char :=
  List.intercalate ['\n'] (wrapLoop width [] [] (splitSpaces text))

/-- The outcome of one `render_live` call: the new value of the global
`last_rendered` and whether anything was written to the terminal. -/
structure RenderOut where
  rendered : List Char
  wrote : Bool
deriving DecidableEq, Repr

/-- The candidate text `render_live` computes from its two arguments
(lines 37-38 of `live_stt.py`):

    text = (committed + " " + interim).strip() if interim else committed.strip()
    text = clean_text(text)
-/
def renderText (removeFillers : Bool) (committed interim : List Char) : List Char :=
  clean_text removeFillers
    (if interim.isEmpty then strip committed else strip (committed ++ ' ' :: interim))

/-- `render_live(committed, interim)` (lines 34-74 of `live_stt.py`), with
the globals `REMOVE_FILLERS`/`SOFT_WRAP` and the terminal width as explicit
parameters and the global `last_rendered` threaded through.  In both
presentation branches the terminal write is skipped when the new text
equals `last_rendered` (the bytes actually printed are not modelled beyond
the fact that a write occurs). -/
def render_live (removeFillers softWrap : Bool) (width : Nat)
    (lastRendered committed interim : List Char) : RenderOut :=
  let text := renderText removeFillers committed interim
  if softWrap then
    let textToPrint := wrapText width text
    if textToPrint ≠ lastRendered then ⟨textToPrint, true⟩ else ⟨lastRendered, false⟩
  else
    if text ≠ lastRendered then ⟨text, true⟩ else ⟨lastRendered, false⟩

/-- One recognition update: the top alternative's transcript and the
final/interim flag. -/
structure RecogResult where
  text : List Char
  isFinal : Bool
deriving DecidableEq, Repr

/-- The mutable state of `main`'s result-processing loop: the globals
`committed_text` and `last_rendered` and the local `current_interim`. -/
structure LoopState where
  committed_text : List Char
  current_interim : List Char
  last_rendered : List Char
deriving DecidableEq, Repr

/-- Processing of one recognition result by `main` (lines 123-138):

    txt = clean_text(alt.transcript)
    if result.is_final:
        if txt:
            committed_text = (committed_text + " " + txt).strip() if committed_text else txt
        current_interim = ""
        render_live(committed_text, current_interim)
    else:
        current_interim = txt
        render_live(committed_text, current_interim)
-/
def mainStep (removeFillers softWrap : Bool) (width : Nat)
    (st : LoopState) (r : RecogResult) : LoopState :=
  let txt := clean_text removeFillers r.text
  if r.isFinal then
    let committed := commitFinal removeFillers st.committed_text r.text
    let ro := render_live removeFillers softWrap width st.last_rendered committed []
    ⟨committed, [], ro.rendered⟩
  else
    let ro := render_live removeFillers softWrap width st.last_rendered st.committed_text txt
    ⟨st.committed_text, txt, ro.rendered⟩

/-- Initial loop state: empty committed text, interim and render snapshot. -/
def initState : LoopState := ⟨[], [], []⟩

/-- A whole session: fold the result stream through `main`'s loop. -/
def runSession (removeFillers softWrap : Bool) (width : Nat)
    (rs : List RecogResult) : LoopState :=
  rs.foldl (mainStep removeFillers softWrap width) initState

/-- The placeholder printed when nothing was captured (line 148). -/
def placeholderMsg : List Char := "(No transcript captured.)".data

/-- The transcript printed at session end (lines 145-148):

    final_paragraph = clean_text(committed_text)
    print(final_paragraph if final_paragraph else "(No transcript captured.)")
-/
def exitPrint (removeFillers : Bool) (committed : List Char) : List Char :=
  let p := clean_text removeFillers committed
  if p.isEmpty then placeholderMsg else p

/-- The arguments `main` passes to `render_live` while processing one
result (lines 134 and 138): on a final, the updated committed text with an
empty interim; on an interim, the unchanged committed text with the cleaned
interim text. -/
def renderArgsOfStep (removeFillers : Bool) (st : LoopState) (r : RecogResult) :
    List Char × List Char :=
  if r.isFinal then (commitFinal removeFillers st.committed_text r.text, [])
  else (st.committed_text, clean_text removeFillers r.text)

/-- Modelled from the spec: the `singleLineTail` presentation mode of the
ViewportRenderer (spec section 4.3).  The repository variant implementing
this mode is not among the provided sources (`src/` holds only the
multi-line-wrap iteration), so the view computation follows the spec's
words: the candidate text "is collapsed to a single line capped at
`terminalWidth - 2` characters: if the cleaned text exceeds that length,
keep only the trailing `(maxChars - 1)` characters and prefix with a single
ellipsis marker". -/
def singleLineTailView (width : Nat) (text : List Char) : List Char :=
  let maxChars := width - 2
  if maxChars < text.length then
    '…' :: text.drop (text.length - (maxChars - 1))
  else text

/-! ### Proof-device definitions

The following definitions are not part of the program; they name the normal
forms and decompositions used to reason about `clean_text` and the commit
loop. -/

/-- General scanner entry point (with the fuel fixed to the input length, as
in `fillerSub`); `fillerSub t = fillerScan false t`. -/
def fillerScan (prevWord : Bool) (l : List Char) : List Char :=
  fillerScanF l.length prevWord l

/-- All characters of the list match the (lowercase) pattern letter `ch`
case-insensitively. -/
def allChar (ch : Char) (l : List Char) : Bool :=
  l.all (lowEq ch)

/-- Word shape of `hmm+` after the initial `h`: an `m` followed by one or
more `m`. -/
def hmmWordTail : List Char → Bool
  | c2 :: rest2 => asciiLower c2 == 'm' && (!rest2.isEmpty && allChar 'm' rest2)
  | [] => false

/-- Word shape of `erm+` after the initial `e`: an `r` followed by one or
more `m`. -/
def ermWordTail : List Char → Bool
  | c2 :: rest2 => asciiLower c2 == 'r' && (!rest2.isEmpty && allChar 'm' rest2)
  | [] => false

/-- Word-level characterisation of the core alternation
`um+|uh+|hmm+|erm+|eh+`: whether an entire word (a maximal run of word
characters) is one of the filler shapes. -/
def isFillerWord : List Char → Bool
  | [] => false
  | c :: rest =>
    if asciiLower c == 'u' then
      (!rest.isEmpty && allChar 'm' rest) || (!rest.isEmpty && allChar 'h' rest)
    else if asciiLower c == 'h' then hmmWordTail rest
    else if asciiLower c == 'e' then ermWordTail rest || (!rest.isEmpty && allChar 'h' rest)
    else false

/-- The maximal word-character runs of a string, in order. -/
def wordsOf : List Char → List (List Char)
  | [] => []
  | c :: cs =>
    if isWordChar c then
      (c :: cs.takeWhile isWordChar) :: wordsOf (cs.dropWhile isWordChar)
    else wordsOf cs
termination_by l => l.length
decreasing_by
  · exact Nat.lt_succ_of_le (List.dropWhile_sublist _).length_le
  · exact Nat.lt_succ_self _

/-- The first character, if any, is not whitespace. -/
def headNotSpace : List Char → Bool
  | [] => true
  | c :: _ => !isSpace c

/-- The last character, if any, is not whitespace. -/
def lastNotSpace : List Char → Bool
  | [] => true
  | [c] => !isSpace c
  | _ :: cs => lastNotSpace cs

/-- Every whitespace character is a plain space followed by a non-space
character or the end: the normal form produced by
`re.sub(r"\s+", " ", t.strip())`. -/
def spacedOk : List Char → Bool
  | [] => true
  | c :: cs => (!isSpace c || (c == ' ' && headNotSpace cs)) && spacedOk cs

/-- No whitespace character is deleted by `re.sub(r"\s+([,.;:!?])", r"\1")`:
no whitespace run immediately precedes one of the six punctuation marks. -/
def noSpBeforePunct : List Char → Bool
  | [] => true
  | c :: cs => !(isSpace c && firstNonSpacePunct cs) && noSpBeforePunct cs

/-- The first character, if any, is not one of the six punctuation marks. -/
def headNotPunct : List Char → Bool
  | [] => true
  | c :: _ => !isPunct6 c

/-! ### Character-class lemmas -/

theorem isSpace_not_word {c : Char} (h : isSpace c = true) : isWordChar c = false := by
  simp only [isSpace, Bool.or_eq_true, beq_iff_eq] at h
  rcases h with ((((h | h) | h) | h) | h) | h <;> subst h <;> decide

theorem isPunct6_not_word {c : Char} (h : isPunct6 c = true) : isWordChar c = false := by
  simp only [isPunct6, Bool.or_eq_true, beq_iff_eq] at h
  rcases h with ((((h | h) | h) | h) | h) | h <;> subst h <;> decide

theorem lowEq_isWordChar {ch c : Char} (hch : isWordChar ch = true)
    (h : lowEq ch c = true) : isWordChar c = true := by
  simp only [lowEq, beq_iff_eq] at h
  unfold asciiLower at h
  by_cases hc : ('A' ≤ c && c ≤ 'Z') = true
  · simp only [Bool.and_eq_true, decide_eq_true_eq] at hc
    have h1 : c.isUpper = true := by
      simp only [Char.isUpper, Bool.and_eq_true, decide_eq_true_eq]
      exact ⟨hc.1, hc.2⟩
    simp [isWordChar, Char.isAlpha, h1]
  · rw [if_neg hc] at h
    subst h
    exact hch

theorem lowEq_false_of_not_word {ch c : Char} (hch : isWordChar ch = true)
    (h : isWordChar c = false) : lowEq ch c = false := by
  by_contra hne
  have : lowEq ch c = true := by
    cases hl : lowEq ch c
    · exact absurd hl hne
    · rfl
  rw [lowEq_isWordChar hch this] at h
  exact Bool.true_eq_false.mp h

/-! ### takeWhile / dropWhile helpers -/

theorem takeWhile_sub {p q : Char → Bool} (hpq : ∀ c, p c = true → q c = true) :
    ∀ l : List Char, l.takeWhile p = (l.takeWhile q).takeWhile p := by
  intro l
  induction l with
  | nil => rfl
  | cons c cs ih =>
    by_cases hp : p c = true
    · have hq := hpq c hp
      simp [List.takeWhile_cons, hp, hq, ih]
    · simp only [Bool.not_eq_true] at hp
      by_cases hq : q c = true
      · simp [List.takeWhile_cons, hp, hq]
      · simp only [Bool.not_eq_true] at hq
        simp [List.takeWhile_cons, hp, hq]

theorem takeWhile_length_le (p : Char → Bool) (l : List Char) :
    (l.takeWhile p).length ≤ l.length :=
  (List.takeWhile_sublist _).length_le

theorem takeWhile_length_eq_iff_all {p : Char → Bool} {l : List Char} :
    (l.takeWhile p).length = l.length ↔ l.all p = true := by
  induction l with
  | nil => simp
  | cons c cs ih =>
    by_cases hp : p c = true
    · simp [List.takeWhile_cons, hp, ih]
    · simp only [Bool.not_eq_true] at hp
      simp only [List.takeWhile_cons, hp, List.all_cons]
      constructor
      · intro h
        exact absurd h.symm (Nat.ne_of_gt (Nat.succ_pos _))
      · intro h
        rw [Bool.false_and] at h
        exact absurd h Bool.false_ne_true

theorem takeWhile_eq_self_of_all {p : Char → Bool} {l : List Char}
    (h : l.all p = true) : l.takeWhile p = l := by
  induction l with
  | nil => rfl
  | cons c cs ih =>
    simp only [List.all_cons, Bool.and_eq_true] at h
    simp [List.takeWhile_cons, h.1, ih h.2]

theorem drop_length_takeWhile (p : Char → Bool) (l : List Char) :
    l.drop (l.takeWhile p).length = l.dropWhile p := by
  calc l.drop (l.takeWhile p).length
      = (l.takeWhile p ++ l.dropWhile p).drop (l.takeWhile p).length := by
        rw [List.takeWhile_append_dropWhile]
    _ = l.dropWhile p := List.drop_left _ _

theorem takeWhile_head_of_lt {p : Char → Bool} :
    ∀ (l : List Char) (n : Nat), n < (l.takeWhile p).length →
      ∃ d ds, l.drop n = d :: ds ∧ p d = true := by
  intro l
  induction l with
  | nil => intro n h; simp at h
  | cons c cs ih =>
    intro n h
    by_cases hp : p c = true
    · cases n with
      | zero => exact ⟨c, cs, rfl, hp⟩
      | succ m =>
        simp only [List.takeWhile_cons, hp, if_true, List.length_cons,
          Nat.succ_lt_succ_iff] at h
        exact ih m h
    · simp only [Bool.not_eq_true] at hp
      simp [List.takeWhile_cons, hp] at h
  
theorem dropWhile_head {p : Char → Bool} :
    ∀ (l : List Char) {d : Char} {ds : List Char}, l.dropWhile p = d :: ds → p d = false := by
  intro l
  induction l with
  | nil => intro d ds h; simp at h
  | cons c cs ih =>
    intro d ds h
    by_cases hp : p c = true
    · rw [List.dropWhile_cons, if_pos hp] at h
      exact ih h
    · simp only [Bool.not_eq_true] at hp
      rw [List.dropWhile_cons, if_neg (by simp [hp])] at h
      cases h
      exact hp

/-! ### Characterisation of the filler matcher -/

theorem runThen_one_eq {ch : Char} (hch : isWordChar ch = true) (l : List Char) :
    runThen ch 1 l =
      if l.takeWhile isWordChar ≠ [] ∧ (l.takeWhile isWordChar).all (lowEq ch) = true
      then some (l.dropWhile isWordChar) else none := by
  have hsub : l.takeWhile (lowEq ch) = (l.takeWhile isWordChar).takeWhile (lowEq ch) :=
    takeWhile_sub (fun c hc => lowEq_isWordChar hch hc) l
  have hnw : (l.takeWhile (lowEq ch)).length ≤ (l.takeWhile isWordChar).length := by
    rw [hsub]; exact takeWhile_length_le _ _
  by_cases heq : (l.takeWhile (lowEq ch)).length = (l.takeWhile isWordChar).length
  · have hdrop : l.drop (l.takeWhile (lowEq ch)).length = l.dropWhile isWordChar := by
      rw [heq]; exact drop_length_takeWhile _ _
    have hb : boundaryAfter (l.drop (l.takeWhile (lowEq ch)).length) = true := by
      rw [hdrop]
      cases hd : l.dropWhile isWordChar with
      | nil => rfl
      | cons d ds => simp [boundaryAfter, dropWhile_head l hd]
    have hall : (l.takeWhile isWordChar).all (lowEq ch) = true := by
      apply takeWhile_length_eq_iff_all.mp
      rw [← hsub]; exact heq
    by_cases hne : l.takeWhile isWordChar = []
    · have hn0 : (l.takeWhile (lowEq ch)).length = 0 := by rw [heq, hne]; rfl
      simp only [runThen, hn0]
      rw [if_neg (by simp), if_neg (by simp [hne])]
    · have h1 : 1 ≤ (l.takeWhile (lowEq ch)).length := by
        rw [heq]
        exact Nat.pos_of_ne_zero (fun h0 => hne (List.eq_nil_of_length_eq_zero h0))
      simp only [runThen]
      rw [if_pos (by simp [h1, hb]), if_pos ⟨hne, hall⟩, hdrop]
  · have hlt : (l.takeWhile (lowEq ch)).length < (l.takeWhile isWordChar).length :=
      Nat.lt_of_le_of_ne hnw heq
    obtain ⟨d, ds, hd, hwd⟩ := takeWhile_head_of_lt l _ hlt
    have hb : boundaryAfter (l.drop (l.takeWhile (lowEq ch)).length) = false := by
      rw [hd]; simp [boundaryAfter, hwd]
    simp only [runThen]
    rw [if_neg (by simp [hb])]
    have hcond : ¬(l.takeWhile isWordChar ≠ [] ∧ (l.takeWhile isWordChar).all (lowEq ch) = true) := by
      rintro ⟨-, hall⟩
      apply heq
      rw [hsub, takeWhile_eq_self_of_all hall]
    rw [if_neg hcond]

theorem fillerCond_iff {ch : Char} {r : List Char} :
    ((!r.isEmpty && allChar ch r) = true) ↔ (r ≠ [] ∧ r.all (lowEq ch) = true) := by
  simp [allChar, List.isEmpty_iff]


theorem bool_not_true {b : Bool} (h : b = false) : ¬(b = true) := by
  rw [h]; simp

theorem runThen_one_eqB {ch : Char} (hch : isWordChar ch = true) (l : List Char) :
    runThen ch 1 l =
      if (!(l.takeWhile isWordChar).isEmpty && allChar ch (l.takeWhile isWordChar)) = true
      then some (l.dropWhile isWordChar) else none := by
  rw [runThen_one_eq hch l]
  by_cases h : l.takeWhile isWordChar ≠ [] ∧ (l.takeWhile isWordChar).all (lowEq ch) = true
  · rw [if_pos h, if_pos (fillerCond_iff.mpr h)]
  · rw [if_neg h, if_neg (fun hb => h (fillerCond_iff.mp hb))]

theorem matchCore_cons (c : Char) (cs : List Char) :
    matchCore (c :: cs) =
      if asciiLower c == 'u' then orTry (runThen 'm' 1 cs) (runThen 'h' 1 cs)
      else if asciiLower c == 'h' then hmmTail cs
      else if asciiLower c == 'e' then orTry (ermTail cs) (runThen 'h' 1 cs)
      else none := rfl

theorem isFillerWord_cons (c : Char) (rest : List Char) :
    isFillerWord (c :: rest) =
      if asciiLower c == 'u' then
        (!rest.isEmpty && allChar 'm' rest) || (!rest.isEmpty && allChar 'h' rest)
      else if asciiLower c == 'h' then hmmWordTail rest
      else if asciiLower c == 'e' then ermWordTail rest || (!rest.isEmpty && allChar 'h' rest)
      else false := rfl

theorem orTry_if {A B : Bool} {d : List Char} :
    orTry (if A = true then some d else none) (if B = true then some d else none)
      = if (A || B) = true then some d else none := by
  cases A <;> cases B <;> simp [orTry]

theorem hmmTail_eq (cs : List Char) :
    hmmTail cs =
      if hmmWordTail (cs.takeWhile isWordChar) = true
      then some (cs.dropWhile isWordChar) else none := by
  cases cs with
  | nil => simp [hmmTail, hmmWordTail]
  | cons c2 cs2 =>
    show (if asciiLower c2 == 'm' then runThen 'm' 1 cs2 else none) = _
    by_cases hm2 : (asciiLower c2 == 'm') = true
    · have hc2w : isWordChar c2 = true := lowEq_isWordChar (by decide) hm2
      have htw2 : (c2 :: cs2).takeWhile isWordChar = c2 :: cs2.takeWhile isWordChar := by
        simp [List.takeWhile_cons, hc2w]
      have hdw2 : (c2 :: cs2).dropWhile isWordChar = cs2.dropWhile isWordChar := by
        simp [List.dropWhile_cons, hc2w]
      rw [htw2, hdw2, if_pos hm2, runThen_one_eqB (by decide) cs2]
      show _ = (if (hmmWordTail (c2 :: cs2.takeWhile isWordChar)) = true then _ else _)
      have hword : hmmWordTail (c2 :: cs2.takeWhile isWordChar)
          = (!(cs2.takeWhile isWordChar).isEmpty && allChar 'm' (cs2.takeWhile isWordChar)) := by
        show (asciiLower c2 == 'm' && _) = _
        rw [hm2, Bool.true_and]
      rw [hword]
    · have hm2' : (asciiLower c2 == 'm') = false := by simpa using hm2
      rw [if_neg hm2]
      by_cases hc2w : isWordChar c2 = true
      · have htw2 : (c2 :: cs2).takeWhile isWordChar = c2 :: cs2.takeWhile isWordChar := by
          simp [List.takeWhile_cons, hc2w]
        rw [htw2]
        have hword : hmmWordTail (c2 :: cs2.takeWhile isWordChar) = false := by
          show (asciiLower c2 == 'm' && _) = _
          rw [hm2', Bool.false_and]
        rw [hword, if_neg (bool_not_true rfl)]
      · have hc2w' : isWordChar c2 = false := by simpa using hc2w
        have htw2 : (c2 :: cs2).takeWhile isWordChar = [] := by
          simp [List.takeWhile_cons, hc2w']
        rw [htw2]
        simp [hmmWordTail]

theorem ermTail_eq (cs : List Char) :
    ermTail cs =
      if ermWordTail (cs.takeWhile isWordChar) = true
      then some (cs.dropWhile isWordChar) else none := by
  cases cs with
  | nil => simp [ermTail, ermWordTail]
  | cons c2 cs2 =>
    show (if asciiLower c2 == 'r' then runThen 'm' 1 cs2 else none) = _
    by_cases hr2 : (asciiLower c2 == 'r') = true
    · have hc2w : isWordChar c2 = true := lowEq_isWordChar (by decide) hr2
      have htw2 : (c2 :: cs2).takeWhile isWordChar = c2 :: cs2.takeWhile isWordChar := by
        simp [List.takeWhile_cons, hc2w]
      have hdw2 : (c2 :: cs2).dropWhile isWordChar = cs2.dropWhile isWordChar := by
        simp [List.dropWhile_cons, hc2w]
      rw [htw2, hdw2, if_pos hr2, runThen_one_eqB (by decide) cs2]
      have hword : ermWordTail (c2 :: cs2.takeWhile isWordChar)
          = (!(cs2.takeWhile isWordChar).isEmpty && allChar 'm' (cs2.takeWhile isWordChar)) := by
        show (asciiLower c2 == 'r' && _) = _
        rw [hr2, Bool.true_and]
      rw [hword]
    · have hr2' : (asciiLower c2 == 'r') = false := by simpa using hr2
      rw [if_neg hr2]
      by_cases hc2w : isWordChar c2 = true
      · have htw2 : (c2 :: cs2).takeWhile isWordChar = c2 :: cs2.takeWhile isWordChar := by
          simp [List.takeWhile_cons, hc2w]
        rw [htw2]
        have hword : ermWordTail (c2 :: cs2.takeWhile isWordChar) = false := by
          show (asciiLower c2 == 'r' && _) = _
          rw [hr2', Bool.false_and]
        rw [hword, if_neg (bool_not_true rfl)]
      · have hc2w' : isWordChar c2 = false := by simpa using hc2w
        have htw2 : (c2 :: cs2).takeWhile isWordChar = [] := by
          simp [List.takeWhile_cons, hc2w']
        rw [htw2]
        simp [ermWordTail]

theorem matchCore_eq (l : List Char) :
    matchCore l =
      if isFillerWord (l.takeWhile isWordChar) = true
      then some (l.dropWhile isWordChar) else none := by
  cases l with
  | nil => rfl
  | cons c cs =>
    rw [matchCore_cons]
    by_cases hcw : isWordChar c = true
    case neg =>
      have hcw' : isWordChar c = false := by simpa using hcw
      have hu : (asciiLower c == 'u') = false := lowEq_false_of_not_word (by decide) hcw'
      have hh : (asciiLower c == 'h') = false := lowEq_false_of_not_word (by decide) hcw'
      have he : (asciiLower c == 'e') = false := lowEq_false_of_not_word (by decide) hcw'
      have htw : (c :: cs).takeWhile isWordChar = [] := by
        simp [List.takeWhile_cons, hcw']
      rw [if_neg (bool_not_true hu), if_neg (bool_not_true hh), if_neg (bool_not_true he), htw]
      simp [isFillerWord]
    case pos =>
      have htw : (c :: cs).takeWhile isWordChar = c :: cs.takeWhile isWordChar := by
        simp [List.takeWhile_cons, hcw]
      have hdw : (c :: cs).dropWhile isWordChar = cs.dropWhile isWordChar := by
        simp [List.dropWhile_cons, hcw]
      rw [htw, hdw, isFillerWord_cons]
      by_cases hu : (asciiLower c == 'u') = true
      · rw [if_pos hu, if_pos hu,
          @runThen_one_eqB 'm' (by decide) cs, @runThen_one_eqB 'h' (by decide) cs]
        exact orTry_if
      · have hu' : (asciiLower c == 'u') = false := by simpa using hu
        rw [if_neg hu, if_neg hu]
        by_cases hh : (asciiLower c == 'h') = true
        · rw [if_pos hh, if_pos hh]
          exact hmmTail_eq cs
        · rw [if_neg hh, if_neg hh]
          by_cases he : (asciiLower c == 'e') = true
          · rw [if_pos he, if_pos he,
              ermTail_eq cs, @runThen_one_eqB 'h' (by decide) cs]
            exact orTry_if
          · rw [if_neg he, if_neg he, if_neg (bool_not_true rfl)]

theorem matchCore_some_length {l r : List Char} (h : matchCore l = some r) :
    r.length < l.length := by
  rw [matchCore_eq] at h
  by_cases hc : isFillerWord (l.takeWhile isWordChar) = true
  · rw [if_pos hc] at h
    cases h
    have hne : l.takeWhile isWordChar ≠ [] := by
      intro h0
      rw [h0] at hc
      exact absurd hc (by simp [isFillerWord])
    have hlen : (l.takeWhile isWordChar).length + (l.dropWhile isWordChar).length = l.length := by
      rw [← List.length_append, List.takeWhile_append_dropWhile]
    have hpos := List.length_pos.mpr hne
    omega
  · rw [if_neg hc] at h
    cases h

theorem matchFiller_eq (l : List Char) :
    matchFiller l =
      if isFillerWord (l.takeWhile isWordChar) = true
      then some (((l.dropWhile isWordChar).takeWhile isTrail).isEmpty,
                 (l.dropWhile isWordChar).dropWhile isTrail)
      else none := by
  unfold matchFiller
  rw [matchCore_eq]
  by_cases hc : isFillerWord (l.takeWhile isWordChar) = true
  · rw [if_pos hc, if_pos hc]
  · rw [if_neg hc, if_neg hc]

theorem matchFiller_some_length {l : List Char} {b : Bool} {rest : List Char}
    (h : matchFiller l = some (b, rest)) : rest.length < l.length := by
  unfold matchFiller at h
  cases hmc : matchCore l with
  | none => rw [hmc] at h; cases h
  | some r =>
    rw [hmc] at h
    have hr : rest = r.dropWhile isTrail := by
      cases h; rfl
    subst hr
    exact Nat.lt_of_le_of_lt (List.dropWhile_sublist _).length_le (matchCore_some_length hmc)

theorem fillerScanF_zero (b : Bool) (l : List Char) : fillerScanF 0 b l = l := rfl

theorem fillerScanF_nil (f : Nat) (b : Bool) : fillerScanF (f + 1) b [] = [] := rfl

theorem fillerScanF_true (f : Nat) (c : Char) (cs : List Char) :
    fillerScanF (f + 1) true (c :: cs) = c :: fillerScanF f (isWordChar c) cs := rfl

theorem fillerScanF_false (f : Nat) (c : Char) (cs : List Char) :
    fillerScanF (f + 1) false (c :: cs) =
      match matchFiller (c :: cs) with
      | some (endsWord, rest) => fillerScanF f endsWord rest
      | none => c :: fillerScanF f (isWordChar c) cs := rfl

theorem fillerScanF_congr : ∀ (f1 f2 : Nat) (b : Bool) (l : List Char),
    l.length ≤ f1 → l.length ≤ f2 → fillerScanF f1 b l = fillerScanF f2 b l := by
  intro f1
  induction f1 with
  | zero =>
    intro f2 b l h1 h2
    have hl : l = [] := List.eq_nil_of_length_eq_zero (Nat.le_zero.mp h1)
    subst hl
    cases f2 <;> rfl
  | succ f ih =>
    intro f2 b l h1 h2
    cases l with
    | nil => cases f2 <;> rfl
    | cons c cs =>
      cases f2 with
      | zero => exact absurd h2 (by simp)
      | succ f2' =>
        have hcs1 : cs.length ≤ f := Nat.le_of_succ_le_succ h1
        have hcs2 : cs.length ≤ f2' := Nat.le_of_succ_le_succ h2
        cases b with
        | true =>
          rw [fillerScanF_true, fillerScanF_true, ih f2' (isWordChar c) cs hcs1 hcs2]
        | false =>
          rw [fillerScanF_false, fillerScanF_false]
          cases hm : matchFiller (c :: cs) with
          | none =>
            show c :: fillerScanF f (isWordChar c) cs = c :: fillerScanF f2' (isWordChar c) cs
            rw [ih f2' (isWordChar c) cs hcs1 hcs2]
          | some p =>
            obtain ⟨ew, rest⟩ := p
            show fillerScanF f ew rest = fillerScanF f2' ew rest
            have hrest : rest.length ≤ cs.length := by
              have := matchFiller_some_length hm
              simp only [List.length_cons] at this
              omega
            exact ih f2' ew rest (Nat.le_trans hrest hcs1) (Nat.le_trans hrest hcs2)

theorem fillerSub_eq_scan (t : List Char) : fillerSub t = fillerScan false t := rfl

theorem fillerScan_nil (b : Bool) : fillerScan b [] = [] := rfl

theorem fillerScan_true (c : Char) (cs : List Char) :
    fillerScan true (c :: cs) = c :: fillerScan (isWordChar c) cs := by
  show fillerScanF (cs.length + 1) true (c :: cs) = c :: fillerScanF cs.length (isWordChar c) cs
  rw [fillerScanF_true]

theorem fillerScan_false_none {c : Char} {cs : List Char}
    (hm : matchFiller (c :: cs) = none) :
    fillerScan false (c :: cs) = c :: fillerScan (isWordChar c) cs := by
  show fillerScanF (cs.length + 1) false (c :: cs) = c :: fillerScanF cs.length (isWordChar c) cs
  rw [fillerScanF_false, hm]

theorem fillerScan_false_some {c : Char} {cs : List Char} {ew : Bool} {rest : List Char}
    (hm : matchFiller (c :: cs) = some (ew, rest)) :
    fillerScan false (c :: cs) = fillerScan ew rest := by
  show fillerScanF (cs.length + 1) false (c :: cs) = fillerScanF rest.length ew rest
  rw [fillerScanF_false, hm]
  show fillerScanF cs.length ew rest = fillerScanF rest.length ew rest
  have hrest : rest.length ≤ cs.length := by
    have := matchFiller_some_length hm
    simp only [List.length_cons] at this
    omega
  exact fillerScanF_congr _ _ _ _ hrest (Nat.le_refl _)

/-! ### Words of a string and the scanner -/

theorem wordsOf_nil : wordsOf [] = [] := by rw [wordsOf]

theorem wordsOf_cons_not_word {c : Char} {cs : List Char} (h : isWordChar c = false) :
    wordsOf (c :: cs) = wordsOf cs := by
  rw [wordsOf, if_neg (bool_not_true h)]

theorem wordsOf_cons_word {c : Char} {cs : List Char} (h : isWordChar c = true) :
    wordsOf (c :: cs) = (c :: cs.takeWhile isWordChar) :: wordsOf (cs.dropWhile isWordChar) := by
  rw [wordsOf, if_pos h]

theorem takeWhile_word_fillerScan_true : ∀ ds : List Char,
    (fillerScan true ds).takeWhile isWordChar = ds.takeWhile isWordChar := by
  intro ds
  induction ds with
  | nil => rw [fillerScan_nil]
  | cons d ds ih =>
    rw [fillerScan_true]
    by_cases hd : isWordChar d = true
    · rw [List.takeWhile_cons, List.takeWhile_cons, hd, if_pos rfl, if_pos rfl, hd] at *
      rw [ih]
    · have hd' : isWordChar d = false := by simpa using hd
      rw [List.takeWhile_cons, List.takeWhile_cons, hd', if_neg (bool_not_true rfl),
        if_neg (bool_not_true rfl)]

theorem takeWhile_isEmpty_dropWhile {p : Char → Bool} {l : List Char}
    (h : (l.takeWhile p).isEmpty = true) : l.dropWhile p = l := by
  cases l with
  | nil => rfl
  | cons c cs =>
    rw [List.takeWhile_cons] at h
    by_cases hp : p c = true
    · rw [if_pos hp] at h
      simp at h
    · have hp' : p c = false := by simpa using hp
      rw [List.dropWhile_cons, if_neg (bool_not_true hp')]

theorem fillerScan_eq_self : ∀ (n : Nat) (s : List Char), s.length ≤ n → ∀ (b : Bool),
    (∀ w ∈ wordsOf (if b then s.dropWhile isWordChar else s), isFillerWord w = false) →
    fillerScan b s = s := by
  intro n
  induction n with
  | zero =>
    intro s hs b _
    have hnil : s = [] := List.eq_nil_of_length_eq_zero (Nat.le_zero.mp hs)
    subst hnil
    rw [fillerScan_nil]
  | succ n ih =>
    intro s hs b hw
    cases s with
    | nil => rw [fillerScan_nil]
    | cons c cs =>
      have hcs : cs.length ≤ n := Nat.le_of_succ_le_succ hs
      cases b with
      | true =>
        rw [if_pos rfl] at hw
        rw [fillerScan_true]
        congr 1
        apply ih cs hcs (isWordChar c)
        by_cases hcw : isWordChar c = true
        · intro w hmem
          rw [if_pos hcw] at hmem
          apply hw
          rw [List.dropWhile_cons, if_pos hcw]
          exact hmem
        · have hcw' : isWordChar c = false := by simpa using hcw
          intro w hmem
          rw [if_neg (bool_not_true hcw')] at hmem
          apply hw
          rw [List.dropWhile_cons, if_neg (bool_not_true hcw'), wordsOf_cons_not_word hcw']
          exact hmem
      | false =>
        rw [if_neg (by simp)] at hw
        cases hm : matchFiller (c :: cs) with
        | some p =>
          exfalso
          rw [matchFiller_eq] at hm
          by_cases hf : isFillerWord ((c :: cs).takeWhile isWordChar) = true
          · by_cases hcw : isWordChar c = true
            · rw [List.takeWhile_cons, if_pos hcw] at hf
              have hmem : (c :: cs.takeWhile isWordChar) ∈ wordsOf (c :: cs) := by
                rw [wordsOf_cons_word hcw]
                exact List.mem_cons_self _ _
              rw [hw _ hmem] at hf
              exact absurd hf (by simp)
            · have hcw' : isWordChar c = false := by simpa using hcw
              rw [List.takeWhile_cons, if_neg (bool_not_true hcw')] at hf
              exact absurd hf (by simp [isFillerWord])
          · rw [if_neg hf] at hm
            cases hm
        | none =>
          rw [fillerScan_false_none hm]
          congr 1
          apply ih cs hcs (isWordChar c)
          by_cases hcw : isWordChar c = true
          · intro w hmem
            rw [if_pos hcw] at hmem
            apply hw
            rw [wordsOf_cons_word hcw]
            exact List.mem_cons_of_mem _ hmem
          · have hcw' : isWordChar c = false := by simpa using hcw
            intro w hmem
            rw [if_neg (bool_not_true hcw')] at hmem
            apply hw
            rw [wordsOf_cons_not_word hcw']
            exact hmem

theorem fillerScan_no_filler : ∀ (n : Nat) (s : List Char), s.length ≤ n → ∀ (b : Bool),
    ∀ w ∈ wordsOf (if b then (fillerScan b s).dropWhile isWordChar else fillerScan b s),
      isFillerWord w = false := by
  intro n
  induction n with
  | zero =>
    intro s hs b w hmem
    have hnil : s = [] := List.eq_nil_of_length_eq_zero (Nat.le_zero.mp hs)
    subst hnil
    rw [fillerScan_nil] at hmem
    cases b <;> simp [wordsOf_nil] at hmem
  | succ n ih =>
    intro s hs b w hmem
    cases s with
    | nil =>
      rw [fillerScan_nil] at hmem
      cases b <;> simp [wordsOf_nil] at hmem
    | cons c cs =>
      have hcs : cs.length ≤ n := Nat.le_of_succ_le_succ hs
      cases b with
      | true =>
        rw [if_pos rfl, fillerScan_true] at hmem
        by_cases hcw : isWordChar c = true
        · rw [List.dropWhile_cons, if_pos hcw] at hmem
          have := ih cs hcs (isWordChar c)
          rw [if_pos hcw] at this
          rw [hcw] at this hmem
          exact this w hmem
        · have hcw' : isWordChar c = false := by simpa using hcw
          rw [List.dropWhile_cons, if_neg (bool_not_true hcw'),
            wordsOf_cons_not_word hcw', hcw'] at hmem
          have := ih cs hcs false
          rw [if_neg (by simp)] at this
          exact this w hmem
      | false =>
        rw [if_neg (by simp)] at hmem
        cases hm : matchFiller (c :: cs) with
        | none =>
          rw [fillerScan_false_none hm] at hmem
          have hm' := hm
          rw [matchFiller_eq] at hm'
          have hf : isFillerWord ((c :: cs).takeWhile isWordChar) = false := by
            by_cases hf0 : isFillerWord ((c :: cs).takeWhile isWordChar) = true
            · rw [if_pos hf0] at hm'
              cases hm'
            · simpa using hf0
          by_cases hcw : isWordChar c = true
          · rw [hcw, wordsOf_cons_word hcw, takeWhile_word_fillerScan_true] at hmem
            rcases List.mem_cons.mp hmem with hw | hw
            · subst hw
              rw [List.takeWhile_cons, if_pos hcw] at hf
              exact hf
            · have := ih cs hcs true
              rw [if_pos rfl] at this
              exact this w hw
          · have hcw' : isWordChar c = false := by simpa using hcw
            rw [hcw', wordsOf_cons_not_word hcw'] at hmem
            have := ih cs hcs false
            rw [if_neg (by simp)] at this
            exact this w hmem
        | some p =>
          obtain ⟨ew, rest⟩ := p
          rw [fillerScan_false_some hm] at hmem
          have hrest : rest.length ≤ n := by
            have := matchFiller_some_length hm
            simp only [List.length_cons] at this
            omega
          have hm' := hm
          rw [matchFiller_eq] at hm'
          by_cases hf : isFillerWord ((c :: cs).takeWhile isWordChar) = true
          case neg =>
            rw [if_neg hf] at hm'
            cases hm'
          case pos =>
            rw [if_pos hf] at hm'
            simp only [Option.some.injEq, Prod.mk.injEq] at hm'
            obtain ⟨hew, hr0⟩ := hm'
            cases hEW : ew with
            | false =>
              rw [hEW] at hmem
              have := ih rest hrest false
              rw [if_neg (by simp)] at this
              exact this w hmem
            | true =>
              have hempty : (((c :: cs).dropWhile isWordChar).takeWhile isTrail).isEmpty = true := by
                rw [hew, hEW]
              have hrx : rest = (c :: cs).dropWhile isWordChar := by
                rw [← hr0, takeWhile_isEmpty_dropWhile hempty]
              rw [hEW] at hmem
              cases hrc : rest with
              | nil =>
                rw [hrc, fillerScan_nil, wordsOf_nil] at hmem
                simp at hmem
              | cons d ds =>
                have hd' : isWordChar d = false := by
                  apply dropWhile_head (c :: cs)
                  rw [← hrx]
                  exact hrc
                rw [hrc, fillerScan_true, hd', wordsOf_cons_not_word hd'] at hmem
                have hds : ds.length ≤ n := by
                  rw [hrc] at hrest
                  simp only [List.length_cons] at hrest
                  omega
                have := ih ds hds false
                rw [if_neg (by simp)] at this
                exact this w hmem

/-! ### Whitespace pipeline: words preservation -/

theorem word_not_space {c : Char} (h : isWordChar c = true) : isSpace c = false := by
  cases hs : isSpace c
  · rfl
  · rw [isSpace_not_word hs] at h
    exact absurd h (by simp)

theorem takeWhile_append_all {p : Char → Bool} {a : List Char} (b : List Char)
    (h : ∀ c ∈ a, p c = true) : (a ++ b).takeWhile p = a ++ b.takeWhile p := by
  induction a with
  | nil => rfl
  | cons x xs ih =>
    rw [List.cons_append, List.takeWhile_cons, if_pos (h x (List.mem_cons_self _ _)),
      List.cons_append, ih (fun c hc => h c (List.mem_cons_of_mem _ hc))]

theorem dropWhile_append_all {p : Char → Bool} {a : List Char} (b : List Char)
    (h : ∀ c ∈ a, p c = true) : (a ++ b).dropWhile p = b.dropWhile p := by
  induction a with
  | nil => rfl
  | cons x xs ih =>
    rw [List.cons_append, List.dropWhile_cons, if_pos (h x (List.mem_cons_self _ _)),
      ih (fun c hc => h c (List.mem_cons_of_mem _ hc))]

theorem boundaryAfter_takeWhile_word {l : List Char} (h : boundaryAfter l = true) :
    l.takeWhile isWordChar = [] := by
  cases l with
  | nil => rfl
  | cons c cs =>
    have hc : isWordChar c = false := by simpa [boundaryAfter] using h
    rw [List.takeWhile_cons, if_neg (bool_not_true hc)]

theorem boundaryAfter_dropWhile_word {l : List Char} (h : boundaryAfter l = true) :
    l.dropWhile isWordChar = l := by
  cases l with
  | nil => rfl
  | cons c cs =>
    have hc : isWordChar c = false := by simpa [boundaryAfter] using h
    rw [List.dropWhile_cons, if_neg (bool_not_true hc)]

theorem boundaryAfter_of_dropWhile_word (l : List Char) :
    boundaryAfter (l.dropWhile isWordChar) = true := by
  cases hd : l.dropWhile isWordChar with
  | nil => rfl
  | cons d ds =>
    have := dropWhile_head l hd
    simp [boundaryAfter, this]

theorem wordsOf_cons_word_append {c : Char} {X : List Char} (wp : List Char)
    (hc : isWordChar c = true) (hwp : ∀ x ∈ wp, isWordChar x = true)
    (hX : boundaryAfter X = true) :
    wordsOf (c :: (wp ++ X)) = (c :: wp) :: wordsOf X := by
  rw [wordsOf_cons_word hc, takeWhile_append_all X hwp, boundaryAfter_takeWhile_word hX,
    List.append_nil, dropWhile_append_all X hwp, boundaryAfter_dropWhile_word hX]

theorem wordsOf_dropWhile_space (l : List Char) : wordsOf (l.dropWhile isSpace) = wordsOf l := by
  induction l with
  | nil => rfl
  | cons c cs ih =>
    by_cases hs : isSpace c = true
    · rw [List.dropWhile_cons, if_pos hs, ih, wordsOf_cons_not_word (isSpace_not_word hs)]
    · have hs' : isSpace c = false := by simpa using hs
      rw [List.dropWhile_cons, if_neg (bool_not_true hs')]

theorem stripRight_cons_nil {c : Char} {cs : List Char} (h : stripRight cs = []) :
    stripRight (c :: cs) = if isSpace c then [] else [c] := by
  unfold stripRight
  rw [h]

theorem stripRight_cons_cons {c a : Char} {cs as : List Char} (h : stripRight cs = a :: as) :
    stripRight (c :: cs) = c :: a :: as := by
  unfold stripRight
  rw [h]

theorem stripRight_eq_nil_iff : ∀ {l : List Char}, stripRight l = [] ↔ l.all isSpace = true := by
  intro l
  induction l with
  | nil => simp [stripRight]
  | cons c cs ih =>
    cases hsr : stripRight cs with
    | nil =>
      rw [stripRight_cons_nil hsr]
      by_cases hs : isSpace c = true
      · simp [hs, ih.mp hsr]
      · have hs' : isSpace c = false := by simpa using hs
        simp [hs']
    | cons a as =>
      rw [stripRight_cons_cons hsr]
      have hcs : cs.all isSpace = false := by
        cases hall : cs.all isSpace
        · rfl
        · rw [ih.mpr hall] at hsr
          cases hsr
      constructor
      · intro h
        cases h
      · intro h
        simp only [List.all_cons, Bool.and_eq_true] at h
        exact absurd h.2 (bool_not_true hcs)

theorem wordsOf_all_space {l : List Char} (h : l.all isSpace = true) : wordsOf l = [] := by
  induction l with
  | nil => exact wordsOf_nil
  | cons c cs ih =>
    simp only [List.all_cons, Bool.and_eq_true] at h
    rw [wordsOf_cons_not_word (isSpace_not_word h.1)]
    exact ih h.2

theorem stripRight_append (a b : List Char) :
    stripRight (a ++ b) = if stripRight b = [] then stripRight a else a ++ stripRight b := by
  induction a with
  | nil =>
    by_cases h : stripRight b = []
    · rw [if_pos h, List.nil_append, h]
      rfl
    · rw [if_neg h, List.nil_append]
      rfl
  | cons x xs ih =>
    by_cases h : stripRight b = []
    · rw [if_pos h] at ih ⊢
      cases hsr : stripRight xs with
      | nil =>
        rw [List.cons_append, stripRight_cons_nil (ih.trans hsr), stripRight_cons_nil hsr]
      | cons u us =>
        rw [List.cons_append, stripRight_cons_cons (ih.trans hsr), stripRight_cons_cons hsr]
    · rw [if_neg h] at ih ⊢
      have hne : xs ++ stripRight b ≠ [] := by
        simp [h]
      cases hsr : (xs ++ stripRight b) with
      | nil => exact absurd hsr hne
      | cons u us =>
        rw [List.cons_append, stripRight_cons_cons (ih.trans hsr), List.cons_append, hsr]

theorem stripRight_all_not_space {l : List Char} (h : ∀ c ∈ l, isSpace c = false) :
    stripRight l = l := by
  induction l with
  | nil => rfl
  | cons c cs ih =>
    have hcs := ih (fun x hx => h x (List.mem_cons_of_mem _ hx))
    cases hcc : cs with
    | nil =>
      subst hcc
      rw [stripRight_cons_nil (show stripRight [] = [] from rfl),
        if_neg (bool_not_true (h c (List.mem_cons_self _ _)))]
    | cons d ds =>
      subst hcc
      rw [stripRight_cons_cons hcs]

theorem stripRight_head {c : Char} {cs : List Char} {d : Char} {ds : List Char}
    (h : stripRight (c :: cs) = d :: ds) : d = c := by
  cases hsr : stripRight cs with
  | nil =>
    rw [stripRight_cons_nil hsr] at h
    by_cases hs : isSpace c = true
    · rw [if_pos hs] at h
      cases h
    · rw [if_neg hs] at h
      cases h
      rfl
  | cons a as =>
    rw [stripRight_cons_cons hsr] at h
    cases h
    rfl

theorem wordsOf_stripRight : ∀ (n : Nat) (l : List Char), l.length ≤ n →
    wordsOf (stripRight l) = wordsOf l := by
  intro n
  induction n with
  | zero =>
    intro l h
    rw [List.eq_nil_of_length_eq_zero (Nat.le_zero.mp h)]
    rfl
  | succ n ih =>
    intro l hl
    cases l with
    | nil => rfl
    | cons c cs =>
      have hcs : cs.length ≤ n := Nat.le_of_succ_le_succ hl
      by_cases hcw : isWordChar c = true
      case neg =>
        have hcw' : isWordChar c = false := by simpa using hcw
        cases hsr : stripRight cs with
        | nil =>
          rw [stripRight_cons_nil hsr]
          have hall : cs.all isSpace = true := stripRight_eq_nil_iff.mp hsr
          by_cases hs : isSpace c = true
          · rw [if_pos hs, wordsOf_nil, wordsOf_cons_not_word hcw', wordsOf_all_space hall]
          · rw [if_neg hs, wordsOf_cons_not_word hcw', wordsOf_cons_not_word hcw',
              wordsOf_nil, wordsOf_all_space hall]
        | cons a as =>
          rw [stripRight_cons_cons hsr, wordsOf_cons_not_word hcw', wordsOf_cons_not_word hcw',
            ← hsr, ih cs hcs]
      case pos =>
        have hsplit : cs = cs.takeWhile isWordChar ++ cs.dropWhile isWordChar :=
          (List.takeWhile_append_dropWhile _ _).symm
        have hwp : ∀ x ∈ cs.takeWhile isWordChar, isWordChar x = true :=
          fun x hx => List.mem_takeWhile_imp hx
        have hwpall : (cs.takeWhile isWordChar).all isWordChar = true :=
          List.all_eq_true.mpr hwp
        have hbr : boundaryAfter (cs.dropWhile isWordChar) = true :=
          boundaryAfter_of_dropWhile_word cs
        have happ : stripRight (c :: cs) =
            if stripRight (cs.dropWhile isWordChar) = []
            then stripRight (c :: cs.takeWhile isWordChar)
            else (c :: cs.takeWhile isWordChar) ++ stripRight (cs.dropWhile isWordChar) := by
          conv_lhs => rw [hsplit]
          rw [show c :: (cs.takeWhile isWordChar ++ cs.dropWhile isWordChar)
              = (c :: cs.takeWhile isWordChar) ++ cs.dropWhile isWordChar from rfl,
            stripRight_append]
        have hnotsp : ∀ x ∈ c :: cs.takeWhile isWordChar, isSpace x = false := by
          intro x hx
          rcases List.mem_cons.mp hx with h | h
          · subst h
            exact word_not_space hcw
          · exact word_not_space (hwp x h)
        rw [wordsOf_cons_word hcw]
        by_cases hr0 : stripRight (cs.dropWhile isWordChar) = []
        · rw [if_pos hr0] at happ
          have hall : (cs.dropWhile isWordChar).all isSpace = true :=
            stripRight_eq_nil_iff.mp hr0
          rw [happ, stripRight_all_not_space hnotsp, wordsOf_all_space hall,
            wordsOf_cons_word hcw, takeWhile_eq_self_of_all hwpall,
            List.dropWhile_eq_nil_iff.mpr hwp, wordsOf_nil]
        · rw [if_neg hr0] at happ
          cases hre : cs.dropWhile isWordChar with
          | nil =>
            rw [hre] at hr0
            exact absurd rfl hr0
          | cons d ds =>
            cases hsrr : stripRight (cs.dropWhile isWordChar) with
            | nil => exact absurd hsrr hr0
            | cons u us =>
              have hud : u = d := by
                rw [hre] at hsrr
                exact stripRight_head hsrr
              have hdnw : isWordChar d = false := by
                have hb := hbr
                rw [hre] at hb
                simpa [boundaryAfter] using hb
              have hbu : boundaryAfter (u :: us) = true := by
                simp [boundaryAfter, hud, hdnw]
              rw [happ, hsrr,
                show (c :: cs.takeWhile isWordChar) ++ u :: us
                  = c :: (cs.takeWhile isWordChar ++ u :: us) from rfl,
                wordsOf_cons_word_append _ hcw hwp hbu]
              congr 1
              have hlen : (cs.dropWhile isWordChar).length ≤ n :=
                Nat.le_trans (List.dropWhile_sublist _).length_le hcs
              calc wordsOf (u :: us) = wordsOf (stripRight (cs.dropWhile isWordChar)) := by
                    rw [hsrr]
                _ = wordsOf (cs.dropWhile isWordChar) := ih _ hlen
                _ = wordsOf (d :: ds) := by rw [hre]

theorem collapseWsAux_nil (b : Bool) : collapseWsAux b [] = [] := rfl

theorem collapseWsAux_cons_space_false {c : Char} {cs : List Char} (h : isSpace c = true) :
    collapseWsAux false (c :: cs) = ' ' :: collapseWsAux true cs := by
  simp [collapseWsAux, h]

theorem collapseWsAux_cons_space_true {c : Char} {cs : List Char} (h : isSpace c = true) :
    collapseWsAux true (c :: cs) = collapseWsAux true cs := by
  simp [collapseWsAux, h]

theorem collapseWsAux_cons_not_space {b : Bool} {c : Char} {cs : List Char}
    (h : isSpace c = false) :
    collapseWsAux b (c :: cs) = c :: collapseWsAux false cs := by
  simp [collapseWsAux, h]

theorem collapseWsAux_append_all {a : List Char} (b : List Char)
    (h : ∀ c ∈ a, isSpace c = false) :
    collapseWsAux false (a ++ b) = a ++ collapseWsAux false b := by
  induction a with
  | nil => rfl
  | cons x xs ih =>
    rw [List.cons_append, collapseWsAux_cons_not_space (h x (List.mem_cons_self _ _)),
      List.cons_append, ih (fun c hc => h c (List.mem_cons_of_mem _ hc))]

theorem boundaryAfter_collapseWsAux {X : List Char} (h : boundaryAfter X = true) :
    boundaryAfter (collapseWsAux false X) = true := by
  cases X with
  | nil => rfl
  | cons d ds =>
    have hd : isWordChar d = false := by simpa [boundaryAfter] using h
    by_cases hs : isSpace d = true
    · rw [collapseWsAux_cons_space_false hs]
      show (!isWordChar ' ') = true
      decide
    · have hs' : isSpace d = false := by simpa using hs
      rw [collapseWsAux_cons_not_space hs']
      simpa [boundaryAfter] using hd

theorem wordsOf_collapseWsAux : ∀ (n : Nat) (l : List Char), l.length ≤ n → ∀ (b : Bool),
    wordsOf (collapseWsAux b l) = wordsOf l := by
  intro n
  induction n with
  | zero =>
    intro l h b
    rw [List.eq_nil_of_length_eq_zero (Nat.le_zero.mp h)]
    rfl
  | succ n ih =>
    intro l hl b
    cases l with
    | nil => rfl
    | cons c cs =>
      have hcs : cs.length ≤ n := Nat.le_of_succ_le_succ hl
      by_cases hs : isSpace c = true
      · have hcw' : isWordChar c = false := isSpace_not_word hs
        rw [wordsOf_cons_not_word hcw']
        cases b with
        | true => rw [collapseWsAux_cons_space_true hs, ih cs hcs true]
        | false =>
          rw [collapseWsAux_cons_space_false hs,
            wordsOf_cons_not_word (show isWordChar ' ' = false by decide), ih cs hcs true]
      · have hs' : isSpace c = false := by simpa using hs
        rw [collapseWsAux_cons_not_space hs']
        by_cases hcw : isWordChar c = true
        · have hsplit : cs = cs.takeWhile isWordChar ++ cs.dropWhile isWordChar :=
            (List.takeWhile_append_dropWhile _ _).symm
          have hwp : ∀ x ∈ cs.takeWhile isWordChar, isWordChar x = true :=
            fun x hx => List.mem_takeWhile_imp hx
          have hwpns : ∀ x ∈ cs.takeWhile isWordChar, isSpace x = false :=
            fun x hx => word_not_space (hwp x hx)
          have happ : collapseWsAux false cs
              = cs.takeWhile isWordChar ++ collapseWsAux false (cs.dropWhile isWordChar) := by
            conv_lhs => rw [hsplit]
            exact collapseWsAux_append_all _ hwpns
          have hb : boundaryAfter (collapseWsAux false (cs.dropWhile isWordChar)) = true :=
            boundaryAfter_collapseWsAux (boundaryAfter_of_dropWhile_word cs)
          have hlen : (cs.dropWhile isWordChar).length ≤ n :=
            Nat.le_trans (List.dropWhile_sublist _).length_le hcs
          rw [happ, wordsOf_cons_word_append _ hcw hwp hb, ih _ hlen false,
            wordsOf_cons_word hcw]
        · have hcw' : isWordChar c = false := by simpa using hcw
          rw [wordsOf_cons_not_word hcw', wordsOf_cons_not_word hcw', ih cs hcs false]

theorem fixPunct_nil : fixPunct [] = [] := rfl

theorem firstNonSpacePunct_cons_space {e : Char} {es : List Char} (h : isSpace e = true) :
    firstNonSpacePunct (e :: es) = firstNonSpacePunct es := by
  simp [firstNonSpacePunct, List.dropWhile_cons, h]

theorem firstNonSpacePunct_cons_not_space {e : Char} {es : List Char} (h : isSpace e = false) :
    firstNonSpacePunct (e :: es) = isPunct6 e := by
  simp [firstNonSpacePunct, List.dropWhile_cons, h]

theorem fixPunct_cons_del {c : Char} {cs : List Char} (h : isSpace c = true)
    (h2 : firstNonSpacePunct cs = true) : fixPunct (c :: cs) = fixPunct cs := by
  simp [fixPunct, h, h2]

theorem fixPunct_cons_keep {c : Char} {cs : List Char}
    (h : (isSpace c && firstNonSpacePunct cs) = false) :
    fixPunct (c :: cs) = c :: fixPunct cs := by
  simp [fixPunct, h]

theorem fixPunct_append_all {a : List Char} (b : List Char)
    (h : ∀ c ∈ a, isSpace c = false) :
    fixPunct (a ++ b) = a ++ fixPunct b := by
  induction a with
  | nil => rfl
  | cons x xs ih =>
    rw [List.cons_append,
      fixPunct_cons_keep (by rw [h x (List.mem_cons_self _ _)]; rfl),
      List.cons_append, ih (fun c hc => h c (List.mem_cons_of_mem _ hc))]

theorem fixPunct_punct_head : ∀ {l : List Char}, firstNonSpacePunct l = true →
    ∃ p ps, fixPunct l = p :: ps ∧ isPunct6 p = true := by
  intro l
  induction l with
  | nil => intro h; cases h
  | cons e es ih =>
    intro h
    by_cases hs : isSpace e = true
    · rw [firstNonSpacePunct_cons_space hs] at h
      rw [fixPunct_cons_del hs h]
      exact ih h
    · have hs' : isSpace e = false := by simpa using hs
      rw [firstNonSpacePunct_cons_not_space hs'] at h
      rw [fixPunct_cons_keep (by rw [hs']; rfl)]
      exact ⟨e, fixPunct es, rfl, h⟩

theorem boundaryAfter_fixPunct {X : List Char} (h : boundaryAfter X = true) :
    boundaryAfter (fixPunct X) = true := by
  cases X with
  | nil => rfl
  | cons d ds =>
    have hd : isWordChar d = false := by simpa [boundaryAfter] using h
    by_cases hdel : (isSpace d && firstNonSpacePunct ds) = true
    · simp only [Bool.and_eq_true] at hdel
      rw [fixPunct_cons_del hdel.1 hdel.2]
      obtain ⟨p, ps, hfix, hp⟩ := fixPunct_punct_head hdel.2
      rw [hfix]
      simpa [boundaryAfter] using isPunct6_not_word hp
    · have hdel' : (isSpace d && firstNonSpacePunct ds) = false := by simpa using hdel
      rw [fixPunct_cons_keep hdel']
      simpa [boundaryAfter] using hd

theorem wordsOf_fixPunct : ∀ (n : Nat) (l : List Char), l.length ≤ n →
    wordsOf (fixPunct l) = wordsOf l := by
  intro n
  induction n with
  | zero =>
    intro l h
    rw [List.eq_nil_of_length_eq_zero (Nat.le_zero.mp h)]
    rfl
  | succ n ih =>
    intro l hl
    cases l with
    | nil => rfl
    | cons c cs =>
      have hcs : cs.length ≤ n := Nat.le_of_succ_le_succ hl
      by_cases hcw : isWordChar c = true
      case pos =>
        have hs' : isSpace c = false := word_not_space hcw
        rw [fixPunct_cons_keep (by rw [hs']; rfl)]
        have hsplit : cs = cs.takeWhile isWordChar ++ cs.dropWhile isWordChar :=
          (List.takeWhile_append_dropWhile _ _).symm
        have hwp : ∀ x ∈ cs.takeWhile isWordChar, isWordChar x = true :=
          fun x hx => List.mem_takeWhile_imp hx
        have hwpns : ∀ x ∈ cs.takeWhile isWordChar, isSpace x = false :=
          fun x hx => word_not_space (hwp x hx)
        have happ : fixPunct cs
            = cs.takeWhile isWordChar ++ fixPunct (cs.dropWhile isWordChar) := by
          conv_lhs => rw [hsplit]
          exact fixPunct_append_all _ hwpns
        have hb : boundaryAfter (fixPunct (cs.dropWhile isWordChar)) = true :=
          boundaryAfter_fixPunct (boundaryAfter_of_dropWhile_word cs)
        have hlen : (cs.dropWhile isWordChar).length ≤ n :=
          Nat.le_trans (List.dropWhile_sublist _).length_le hcs
        rw [happ, wordsOf_cons_word_append _ hcw hwp hb, ih _ hlen, wordsOf_cons_word hcw]
      case neg =>
        have hcw' : isWordChar c = false := by simpa using hcw
        by_cases hdel : (isSpace c && firstNonSpacePunct cs) = true
        · simp only [Bool.and_eq_true] at hdel
          rw [fixPunct_cons_del hdel.1 hdel.2, wordsOf_cons_not_word hcw', ih cs hcs]
        · have hdel' : (isSpace c && firstNonSpacePunct cs) = false := by simpa using hdel
          rw [fixPunct_cons_keep hdel', wordsOf_cons_not_word hcw',
            wordsOf_cons_not_word hcw', ih cs hcs]

/-! ### Whitespace normal forms -/

theorem wordsOf_strip (l : List Char) : wordsOf (strip l) = wordsOf l := by
  unfold strip
  rw [wordsOf_stripRight _ _ (Nat.le_refl _), wordsOf_dropWhile_space]

theorem wordsOf_collapseWs (l : List Char) : wordsOf (collapseWs l) = wordsOf l :=
  wordsOf_collapseWsAux l.length l (Nat.le_refl _) false

theorem wordsOf_fixPunct_all (l : List Char) : wordsOf (fixPunct l) = wordsOf l :=
  wordsOf_fixPunct l.length l (Nat.le_refl _)

theorem wordsOf_clean_text (rf : Bool) (t : List Char) :
    wordsOf (clean_text rf t) = wordsOf (if rf then fillerSub t else t) := by
  simp only [clean_text]
  rw [wordsOf_strip, wordsOf_fixPunct_all, wordsOf_collapseWs, wordsOf_strip]

theorem spacedOk_cons (c : Char) (cs : List Char) :
    spacedOk (c :: cs) = ((!isSpace c || (c == ' ' && headNotSpace cs)) && spacedOk cs) := rfl

theorem noSpBeforePunct_cons (c : Char) (cs : List Char) :
    noSpBeforePunct (c :: cs) = (!(isSpace c && firstNonSpacePunct cs) && noSpBeforePunct cs) :=
  rfl

theorem lastNotSpace_cons_cons (c d : Char) (ds : List Char) :
    lastNotSpace (c :: d :: ds) = lastNotSpace (d :: ds) := rfl

theorem headNotSpace_collapseWsAux_true (l : List Char) :
    headNotSpace (collapseWsAux true l) = true := by
  induction l with
  | nil => rfl
  | cons c cs ih =>
    by_cases hs : isSpace c = true
    · rw [collapseWsAux_cons_space_true hs]
      exact ih
    · have hs' : isSpace c = false := by simpa using hs
      rw [collapseWsAux_cons_not_space hs']
      simpa [headNotSpace] using hs'

theorem spacedOk_collapseWsAux (l : List Char) : ∀ b, spacedOk (collapseWsAux b l) = true := by
  induction l with
  | nil => intro b; rfl
  | cons c cs ih =>
    intro b
    by_cases hs : isSpace c = true
    · cases b with
      | true =>
        rw [collapseWsAux_cons_space_true hs]
        exact ih true
      | false =>
        rw [collapseWsAux_cons_space_false hs, spacedOk_cons]
        simp only [Bool.and_eq_true, Bool.or_eq_true]
        refine ⟨Or.inr ⟨rfl, headNotSpace_collapseWsAux_true cs⟩, ih true⟩
    · have hs' : isSpace c = false := by simpa using hs
      rw [collapseWsAux_cons_not_space hs', spacedOk_cons]
      simp only [Bool.and_eq_true, Bool.or_eq_true]
      exact ⟨Or.inl (by simp [hs']), ih false⟩

theorem spacedOk_tail {c : Char} {cs : List Char} (h : spacedOk (c :: cs) = true) :
    spacedOk cs = true := by
  rw [spacedOk_cons, Bool.and_eq_true] at h
  exact h.2

theorem headNotSpace_fixPunct {l : List Char} (h : headNotSpace l = true) :
    headNotSpace (fixPunct l) = true := by
  cases l with
  | nil => rfl
  | cons c cs =>
    have hs : isSpace c = false := by simpa [headNotSpace] using h
    rw [fixPunct_cons_keep (by rw [hs]; rfl)]
    simpa [headNotSpace] using hs

theorem spacedOk_fixPunct {l : List Char} (h : spacedOk l = true) :
    spacedOk (fixPunct l) = true := by
  induction l with
  | nil => rfl
  | cons c cs ih =>
    have hcs := ih (spacedOk_tail h)
    rw [spacedOk_cons, Bool.and_eq_true, Bool.or_eq_true] at h
    by_cases hdel : (isSpace c && firstNonSpacePunct cs) = true
    · simp only [Bool.and_eq_true] at hdel
      rw [fixPunct_cons_del hdel.1 hdel.2]
      exact hcs
    · have hdel' : (isSpace c && firstNonSpacePunct cs) = false := by simpa using hdel
      rw [fixPunct_cons_keep hdel', spacedOk_cons]
      simp only [Bool.and_eq_true, Bool.or_eq_true]
      refine ⟨?_, hcs⟩
      rcases h.1 with h1 | h1
      · exact Or.inl h1
      · simp only [Bool.and_eq_true] at h1
        exact Or.inr (by simp [h1.1, headNotSpace_fixPunct h1.2])

theorem spacedOk_dropWhile_space {l : List Char} (h : spacedOk l = true) :
    spacedOk (l.dropWhile isSpace) = true := by
  induction l with
  | nil => rfl
  | cons c cs ih =>
    by_cases hs : isSpace c = true
    · rw [List.dropWhile_cons, if_pos hs]
      exact ih (spacedOk_tail h)
    · rw [List.dropWhile_cons, if_neg hs]
      exact h

theorem spacedOk_stripRight {l : List Char} (h : spacedOk l = true) :
    spacedOk (stripRight l) = true := by
  induction l with
  | nil => rfl
  | cons c cs ih =>
    have hcs := ih (spacedOk_tail h)
    rw [spacedOk_cons, Bool.and_eq_true, Bool.or_eq_true] at h
    cases hsr : stripRight cs with
    | nil =>
      rw [stripRight_cons_nil hsr]
      by_cases hs : isSpace c = true
      · rw [if_pos hs]
        rfl
      · rw [if_neg hs, spacedOk_cons]
        simp only [Bool.and_eq_true, Bool.or_eq_true]
        exact ⟨Or.inl (by simpa using hs), rfl⟩
    | cons a as =>
      rw [stripRight_cons_cons hsr, spacedOk_cons]
      simp only [Bool.and_eq_true, Bool.or_eq_true]
      rw [hsr] at hcs
      refine ⟨?_, hcs⟩
      rcases h.1 with h1 | h1
      · exact Or.inl h1
      · simp only [Bool.and_eq_true] at h1
        refine Or.inr (by
          refine ⟨h1.1, ?_⟩
          cases cs with
          | nil => cases hsr
          | cons e es =>
            have hae : a = e := stripRight_head hsr
            have := h1.2
            simp only [headNotSpace] at this ⊢
            rw [hae]
            exact this)

theorem collapseWsAux_true_eq_false {cs : List Char} (h : headNotSpace cs = true) :
    collapseWsAux true cs = collapseWsAux false cs := by
  cases cs with
  | nil => rfl
  | cons d ds =>
    have hd : isSpace d = false := by simpa [headNotSpace] using h
    rw [collapseWsAux_cons_not_space hd, collapseWsAux_cons_not_space hd]

theorem collapseWsAux_id {l : List Char} (h : spacedOk l = true) :
    collapseWsAux false l = l := by
  induction l with
  | nil => rfl
  | cons c cs ih =>
    have hcs := ih (spacedOk_tail h)
    rw [spacedOk_cons, Bool.and_eq_true, Bool.or_eq_true] at h
    by_cases hs : isSpace c = true
    · rcases h.1 with h1 | h1
      · rw [hs] at h1
        exact absurd h1 (by simp)
      · simp only [Bool.and_eq_true, beq_iff_eq] at h1
        rw [collapseWsAux_cons_space_false hs, collapseWsAux_true_eq_false h1.2, hcs, h1.1]
    · have hs' : isSpace c = false := by simpa using hs
      rw [collapseWsAux_cons_not_space hs', hcs]

theorem fixPunct_id {l : List Char} (h : noSpBeforePunct l = true) :
    fixPunct l = l := by
  induction l with
  | nil => rfl
  | cons c cs ih =>
    rw [noSpBeforePunct_cons, Bool.and_eq_true] at h
    have hcond : (isSpace c && firstNonSpacePunct cs) = false := by
      rcases h with ⟨h1, -⟩
      cases hb : (isSpace c && firstNonSpacePunct cs)
      · rfl
      · rw [hb] at h1
        exact absurd h1 (by simp)
    rw [fixPunct_cons_keep hcond, ih h.2]

theorem dropWhile_space_id {l : List Char} (h : headNotSpace l = true) :
    l.dropWhile isSpace = l := by
  cases l with
  | nil => rfl
  | cons c cs =>
    have hs : isSpace c = false := by simpa [headNotSpace] using h
    rw [List.dropWhile_cons, if_neg (bool_not_true hs)]

theorem stripRight_id {l : List Char} (h : lastNotSpace l = true) :
    stripRight l = l := by
  induction l with
  | nil => rfl
  | cons c cs ih =>
    cases hcc : cs with
    | nil =>
      subst hcc
      have hs : isSpace c = false := by simpa [lastNotSpace] using h
      rw [stripRight_cons_nil (show stripRight [] = [] from rfl), if_neg (bool_not_true hs)]
    | cons d ds =>
      subst hcc
      have hcs : stripRight (d :: ds) = d :: ds := ih (by
        rw [lastNotSpace_cons_cons] at h
        exact h)
      rw [stripRight_cons_cons hcs]

theorem strip_id {l : List Char} (hh : headNotSpace l = true) (hl : lastNotSpace l = true) :
    strip l = l := by
  unfold strip
  rw [dropWhile_space_id hh, stripRight_id hl]

theorem firstNonSpacePunct_fixPunct (l : List Char) :
    firstNonSpacePunct (fixPunct l) = firstNonSpacePunct l := by
  induction l with
  | nil => rfl
  | cons c cs ih =>
    by_cases hs : isSpace c = true
    · by_cases hp : firstNonSpacePunct cs = true
      · rw [fixPunct_cons_del hs hp, ih, firstNonSpacePunct_cons_space hs]
      · have hp' : firstNonSpacePunct cs = false := by simpa using hp
        rw [fixPunct_cons_keep (by rw [hp']; simp), firstNonSpacePunct_cons_space hs,
          firstNonSpacePunct_cons_space hs, ih]
    · have hs' : isSpace c = false := by simpa using hs
      rw [fixPunct_cons_keep (by rw [hs']; rfl), firstNonSpacePunct_cons_not_space hs',
        firstNonSpacePunct_cons_not_space hs']

theorem noSpBeforePunct_fixPunct (l : List Char) :
    noSpBeforePunct (fixPunct l) = true := by
  induction l with
  | nil => rfl
  | cons c cs ih =>
    by_cases hdel : (isSpace c && firstNonSpacePunct cs) = true
    · simp only [Bool.and_eq_true] at hdel
      rw [fixPunct_cons_del hdel.1 hdel.2]
      exact ih
    · have hdel' : (isSpace c && firstNonSpacePunct cs) = false := by simpa using hdel
      rw [fixPunct_cons_keep hdel', noSpBeforePunct_cons]
      simp only [Bool.and_eq_true]
      refine ⟨?_, ih⟩
      rw [firstNonSpacePunct_fixPunct, hdel']
      rfl

theorem noSpBeforePunct_tail {c : Char} {cs : List Char}
    (h : noSpBeforePunct (c :: cs) = true) : noSpBeforePunct cs = true := by
  rw [noSpBeforePunct_cons, Bool.and_eq_true] at h
  exact h.2

theorem noSpBeforePunct_dropWhile_space {l : List Char} (h : noSpBeforePunct l = true) :
    noSpBeforePunct (l.dropWhile isSpace) = true := by
  induction l with
  | nil => rfl
  | cons c cs ih =>
    by_cases hs : isSpace c = true
    · rw [List.dropWhile_cons, if_pos hs]
      exact ih (noSpBeforePunct_tail h)
    · rw [List.dropWhile_cons, if_neg hs]
      exact h

theorem firstNonSpacePunct_stripRight {l : List Char}
    (h : firstNonSpacePunct (stripRight l) = true) : firstNonSpacePunct l = true := by
  induction l with
  | nil => exact h
  | cons e es ih =>
    cases hsr : stripRight es with
    | nil =>
      rw [stripRight_cons_nil hsr] at h
      by_cases hs : isSpace e = true
      · rw [if_pos hs] at h
        cases h
      · have hs' : isSpace e = false := by simpa using hs
        rw [if_neg hs, firstNonSpacePunct_cons_not_space hs'] at h
        rw [firstNonSpacePunct_cons_not_space hs']
        exact h
    | cons a as =>
      rw [stripRight_cons_cons hsr] at h
      by_cases hs : isSpace e = true
      · rw [firstNonSpacePunct_cons_space hs] at h
        rw [firstNonSpacePunct_cons_space hs]
        apply ih
        rw [hsr]
        exact h
      · have hs' : isSpace e = false := by simpa using hs
        rw [firstNonSpacePunct_cons_not_space hs'] at h
        rw [firstNonSpacePunct_cons_not_space hs']
        exact h

theorem noSpBeforePunct_stripRight {l : List Char} (h : noSpBeforePunct l = true) :
    noSpBeforePunct (stripRight l) = true := by
  induction l with
  | nil => rfl
  | cons c cs ih =>
    have hcs := ih (noSpBeforePunct_tail h)
    rw [noSpBeforePunct_cons, Bool.and_eq_true] at h
    cases hsr : stripRight cs with
    | nil =>
      rw [stripRight_cons_nil hsr]
      by_cases hs : isSpace c = true
      · rw [if_pos hs]
        rfl
      · rw [if_neg hs, noSpBeforePunct_cons]
        simp [firstNonSpacePunct, noSpBeforePunct]
    | cons a as =>
      rw [stripRight_cons_cons hsr, noSpBeforePunct_cons]
      simp only [Bool.and_eq_true]
      rw [hsr] at hcs
      refine ⟨?_, hcs⟩
      cases hfp : firstNonSpacePunct (a :: as) with
      | false => simp
      | true =>
        have hfcs : firstNonSpacePunct cs = true := by
          apply firstNonSpacePunct_stripRight
          rw [hsr]
          exact hfp
        have h1 := h.1
        rw [hfcs] at h1
        simp only [Bool.and_true] at h1
        simp [h1]

theorem headNotSpace_dropWhile_space (l : List Char) :
    headNotSpace (l.dropWhile isSpace) = true := by
  cases hd : l.dropWhile isSpace with
  | nil => rfl
  | cons d ds =>
    have := dropWhile_head l hd
    simpa [headNotSpace] using this

theorem headNotSpace_stripRight {l : List Char} (h : headNotSpace l = true) :
    headNotSpace (stripRight l) = true := by
  cases l with
  | nil => rfl
  | cons c cs =>
    cases hsr : stripRight (c :: cs) with
    | nil => rfl
    | cons d ds =>
      have hd : d = c := stripRight_head hsr
      simp only [headNotSpace] at h ⊢
      rw [hd]
      exact h

theorem lastNotSpace_stripRight (l : List Char) : lastNotSpace (stripRight l) = true := by
  induction l with
  | nil => rfl
  | cons c cs ih =>
    cases hsr : stripRight cs with
    | nil =>
      rw [stripRight_cons_nil hsr]
      by_cases hs : isSpace c = true
      · rw [if_pos hs]
        rfl
      · rw [if_neg hs]
        simpa [lastNotSpace] using hs
    | cons a as =>
      rw [stripRight_cons_cons hsr, lastNotSpace_cons_cons]
      rw [hsr] at ih
      exact ih

theorem spacedOk_strip {z : List Char} (h : spacedOk z = true) : spacedOk (strip z) = true :=
  spacedOk_stripRight (spacedOk_dropWhile_space h)

theorem noSpBeforePunct_strip {z : List Char} (h : noSpBeforePunct z = true) :
    noSpBeforePunct (strip z) = true :=
  noSpBeforePunct_stripRight (noSpBeforePunct_dropWhile_space h)

theorem headNotSpace_strip (z : List Char) : headNotSpace (strip z) = true :=
  headNotSpace_stripRight (headNotSpace_dropWhile_space z)

theorem lastNotSpace_strip (z : List Char) : lastNotSpace (strip z) = true :=
  lastNotSpace_stripRight _

theorem spacedOk_clean_text (rf : Bool) (t : List Char) :
    spacedOk (clean_text rf t) = true := by
  simp only [clean_text, collapseWs]
  exact spacedOk_strip (spacedOk_fixPunct (spacedOk_collapseWsAux _ false))

theorem noSpBeforePunct_clean_text (rf : Bool) (t : List Char) :
    noSpBeforePunct (clean_text rf t) = true := by
  simp only [clean_text]
  exact noSpBeforePunct_strip (noSpBeforePunct_fixPunct _)

theorem headNotSpace_clean_text (rf : Bool) (t : List Char) :
    headNotSpace (clean_text rf t) = true := by
  simp only [clean_text]
  exact headNotSpace_strip _

theorem lastNotSpace_clean_text (rf : Bool) (t : List Char) :
    lastNotSpace (clean_text rf t) = true := by
  simp only [clean_text]
  exact lastNotSpace_strip _

theorem fillerSub_clean_true_id (x : List Char) :
    fillerSub (clean_text true x) = clean_text true x := by
  rw [fillerSub_eq_scan]
  apply fillerScan_eq_self (clean_text true x).length _ (Nat.le_refl _) false
  rw [if_neg (by simp)]
  intro w hw
  rw [wordsOf_clean_text true x, if_pos rfl] at hw
  have hnf := fillerScan_no_filler x.length x (Nat.le_refl _) false
  rw [if_neg (by simp)] at hnf
  exact hnf w hw

theorem strip_clean_text (rf : Bool) (x : List Char) :
    strip (clean_text rf x) = clean_text rf x :=
  strip_id (headNotSpace_clean_text rf x) (lastNotSpace_clean_text rf x)

/-- C3 core: `clean_text` is idempotent for either value of the filler
setting. -/
theorem clean_text_idem (rf : Bool) (x : List Char) :
    clean_text rf (clean_text rf x) = clean_text rf x := by
  have hstrip : strip (clean_text rf x) = clean_text rf x := strip_clean_text rf x
  have hcol : collapseWs (clean_text rf x) = clean_text rf x := by
    unfold collapseWs
    exact collapseWsAux_id (spacedOk_clean_text rf x)
  have hfix : fixPunct (clean_text rf x) = clean_text rf x :=
    fixPunct_id (noSpBeforePunct_clean_text rf x)
  have hfil : (if rf then fillerSub (clean_text rf x) else clean_text rf x)
      = clean_text rf x := by
    cases rf with
    | false => rfl
    | true =>
      rw [if_pos rfl]
      exact fillerSub_clean_true_id x
  show strip (fixPunct (collapseWs (strip
    (if rf then fillerSub (clean_text rf x) else clean_text rf x)))) = clean_text rf x
  rw [hfil, hstrip, hcol, hfix, hstrip]

/-! ### Appending segments -/

theorem boundaryAfter_append {X : List Char} {d : Char} (b : List Char)
    (hX : boundaryAfter X = true) (hd : isWordChar d = false) :
    boundaryAfter (X ++ d :: b) = true := by
  cases X with
  | nil => simpa [boundaryAfter] using hd
  | cons x xs =>
    have hx : isWordChar x = false := by simpa [boundaryAfter] using hX
    simpa [boundaryAfter] using hx

theorem wordsOf_append_sep {d : Char} (hd : isWordChar d = false) :
    ∀ (n : Nat) (a : List Char), a.length ≤ n → ∀ (b : List Char),
      wordsOf (a ++ d :: b) = wordsOf a ++ wordsOf b := by
  intro n
  induction n with
  | zero =>
    intro a ha b
    rw [List.eq_nil_of_length_eq_zero (Nat.le_zero.mp ha), List.nil_append,
      wordsOf_cons_not_word hd, wordsOf_nil, List.nil_append]
  | succ n ih =>
    intro a ha b
    cases a with
    | nil =>
      rw [List.nil_append, wordsOf_cons_not_word hd, wordsOf_nil, List.nil_append]
    | cons x xs =>
      have hxs : xs.length ≤ n := Nat.le_of_succ_le_succ ha
      by_cases hxw : isWordChar x = true
      case neg =>
        have hxw' : isWordChar x = false := by simpa using hxw
        rw [List.cons_append, wordsOf_cons_not_word hxw', wordsOf_cons_not_word hxw',
          ih xs hxs b]
      case pos =>
        have hsplit : xs = xs.takeWhile isWordChar ++ xs.dropWhile isWordChar :=
          (List.takeWhile_append_dropWhile _ _).symm
        have hwp : ∀ y ∈ xs.takeWhile isWordChar, isWordChar y = true :=
          fun y hy => List.mem_takeWhile_imp hy
        have hbr : boundaryAfter (xs.dropWhile isWordChar) = true :=
          boundaryAfter_of_dropWhile_word xs
        have hb2 : boundaryAfter (xs.dropWhile isWordChar ++ d :: b) = true :=
          boundaryAfter_append b hbr hd
        have hlen : (xs.dropWhile isWordChar).length ≤ n :=
          Nat.le_trans (List.dropWhile_sublist _).length_le hxs
        have hshape : (x :: xs) ++ d :: b
            = x :: (xs.takeWhile isWordChar ++ (xs.dropWhile isWordChar ++ d :: b)) := by
          rw [List.cons_append]
          congr 1
          conv_lhs => rw [hsplit]
          rw [List.append_assoc]
        rw [hshape, wordsOf_cons_word_append _ hxw hwp hb2, ih _ hlen b,
          wordsOf_cons_word hxw, List.cons_append]

theorem headNotSpace_append {a : List Char} (b : List Char) (ha : a ≠ []) :
    headNotSpace (a ++ b) = headNotSpace a := by
  cases a with
  | nil => exact absurd rfl ha
  | cons x xs => rfl

theorem lastNotSpace_append {b : List Char} (a : List Char) (hb : b ≠ []) :
    lastNotSpace (a ++ b) = lastNotSpace b := by
  induction a with
  | nil => rfl
  | cons x xs ih =>
    have hne : xs ++ b ≠ [] := by
      intro h
      rcases List.append_eq_nil.mp h with ⟨-, h2⟩
      exact hb h2
    cases hys : xs ++ b with
    | nil => exact absurd hys hne
    | cons u us =>
      rw [List.cons_append, hys, lastNotSpace_cons_cons, ← hys, ih]

theorem all_space_eq_nil {l : List Char} (hl : lastNotSpace l = true)
    (hall : l.all isSpace = true) : l = [] := by
  induction l with
  | nil => rfl
  | cons c cs ih =>
    simp only [List.all_cons, Bool.and_eq_true] at hall
    cases hcc : cs with
    | nil =>
      subst hcc
      have : isSpace c = false := by simpa [lastNotSpace] using hl
      rw [this] at hall
      exact absurd hall.1 (by simp)
    | cons d ds =>
      subst hcc
      rw [lastNotSpace_cons_cons] at hl
      exact absurd (ih hl hall.2) (by simp)

theorem firstNonSpacePunct_append {xs : List Char} (z : List Char)
    (h : xs.dropWhile isSpace ≠ []) :
    firstNonSpacePunct (xs ++ z) = firstNonSpacePunct xs := by
  induction xs with
  | nil => exact absurd rfl h
  | cons x xsr ih =>
    by_cases hs : isSpace x = true
    · rw [List.dropWhile_cons, if_pos hs] at h
      rw [List.cons_append, firstNonSpacePunct_cons_space hs,
        firstNonSpacePunct_cons_space hs, ih h]
    · have hs' : isSpace x = false := by simpa using hs
      rw [List.cons_append, firstNonSpacePunct_cons_not_space hs',
        firstNonSpacePunct_cons_not_space hs']

theorem spacedOk_append_sep {a b : List Char} (hsa : spacedOk a = true)
    (hla : lastNotSpace a = true) (hsb : spacedOk b = true) (hhb : headNotSpace b = true) :
    spacedOk (a ++ ' ' :: b) = true := by
  induction a with
  | nil =>
    rw [List.nil_append, spacedOk_cons]
    simp only [Bool.and_eq_true, Bool.or_eq_true]
    exact ⟨Or.inr (by simp [hhb]), hsb⟩
  | cons x xs ih =>
    rw [spacedOk_cons, Bool.and_eq_true, Bool.or_eq_true] at hsa
    cases hxx : xs with
    | nil =>
      subst hxx
      have hx : isSpace x = false := by simpa [lastNotSpace] using hla
      rw [List.cons_append, List.nil_append, spacedOk_cons]
      simp only [Bool.and_eq_true, Bool.or_eq_true]
      refine ⟨Or.inl (by simp [hx]), ?_⟩
      rw [spacedOk_cons]
      simp only [Bool.and_eq_true, Bool.or_eq_true]
      exact ⟨Or.inr (by simp [hhb]), hsb⟩
    | cons u us =>
      subst hxx
      rw [lastNotSpace_cons_cons] at hla
      have htail := ih hsa.2 hla
      rw [List.cons_append, spacedOk_cons]
      simp only [Bool.and_eq_true, Bool.or_eq_true]
      refine ⟨?_, htail⟩
      rcases hsa.1 with h1 | h1
      · exact Or.inl h1
      · simp only [Bool.and_eq_true] at h1
        refine Or.inr (by
          refine ⟨h1.1, ?_⟩
          rw [List.cons_append]
          exact h1.2)

theorem noSpBeforePunct_append_sep {a b : List Char} (hna : noSpBeforePunct a = true)
    (hla : lastNotSpace a = true) (hnb : noSpBeforePunct b = true)
    (hhb : headNotSpace b = true) (hpb : headNotPunct b = true) (hbne : b ≠ []) :
    noSpBeforePunct (a ++ ' ' :: b) = true := by
  have hfb : firstNonSpacePunct b = false := by
    cases b with
    | nil => exact absurd rfl hbne
    | cons d ds =>
      have hd : isSpace d = false := by simpa [headNotSpace] using hhb
      rw [firstNonSpacePunct_cons_not_space hd]
      simpa [headNotPunct] using hpb
  induction a with
  | nil =>
    rw [List.nil_append, noSpBeforePunct_cons]
    simp only [Bool.and_eq_true]
    refine ⟨?_, hnb⟩
    rw [hfb]
    simp
  | cons x xs ih =>
    rw [noSpBeforePunct_cons, Bool.and_eq_true] at hna
    cases hxx : xs with
    | nil =>
      subst hxx
      have hx : isSpace x = false := by simpa [lastNotSpace] using hla
      rw [List.cons_append, List.nil_append, noSpBeforePunct_cons]
      simp only [Bool.and_eq_true]
      refine ⟨by simp [hx], ?_⟩
      rw [noSpBeforePunct_cons]
      simp only [Bool.and_eq_true]
      refine ⟨by rw [hfb]; simp, hnb⟩
    | cons u us =>
      subst hxx
      rw [lastNotSpace_cons_cons] at hla
      have htail := ih hna.2 hla
      rw [List.cons_append, noSpBeforePunct_cons]
      simp only [Bool.and_eq_true]
      refine ⟨?_, htail⟩
      by_cases hx : isSpace x = true
      · have hfxs : firstNonSpacePunct (u :: us) = false := by
          have h1 := hna.1
          rw [hx] at h1
          simp only [Bool.true_and, Bool.not_eq_true'] at h1
          exact h1
        have hdw : (u :: us).dropWhile isSpace ≠ [] := by
          intro hdw
          have hall : (u :: us).all isSpace = true :=
            List.all_eq_true.mpr (List.dropWhile_eq_nil_iff.mp hdw)
          have := all_space_eq_nil hla hall
          cases this
        rw [show (u :: us) ++ ' ' :: b = (u :: us) ++ (' ' :: b) from rfl,
          firstNonSpacePunct_append (' ' :: b) hdw, hfxs]
        simp
      · have hx' : isSpace x = false := by simpa using hx
        rw [hx']
        simp

theorem no_filler_words_of_clean {s : List Char} (h : clean_text true s = s) :
    ∀ w ∈ wordsOf s, isFillerWord w = false := by
  intro w hw
  rw [← h, wordsOf_clean_text true s, if_pos rfl] at hw
  have hnf := fillerScan_no_filler s.length s (Nat.le_refl _) false
  rw [if_neg (by simp)] at hnf
  exact hnf w hw

theorem clean_text_join {rf : Bool} {c t : List Char}
    (hc : clean_text rf c = c) (ht : clean_text rf t = t) (hcne : c ≠ []) (htne : t ≠ [])
    (hp : headNotPunct t = true) :
    clean_text rf (c ++ ' ' :: t) = c ++ ' ' :: t := by
  have hsc : spacedOk c = true := by rw [← hc]; exact spacedOk_clean_text rf c
  have hst : spacedOk t = true := by rw [← ht]; exact spacedOk_clean_text rf t
  have hnc : noSpBeforePunct c = true := by rw [← hc]; exact noSpBeforePunct_clean_text rf c
  have hnt : noSpBeforePunct t = true := by rw [← ht]; exact noSpBeforePunct_clean_text rf t
  have hhc : headNotSpace c = true := by rw [← hc]; exact headNotSpace_clean_text rf c
  have hht : headNotSpace t = true := by rw [← ht]; exact headNotSpace_clean_text rf t
  have hlc : lastNotSpace c = true := by rw [← hc]; exact lastNotSpace_clean_text rf c
  have hlt : lastNotSpace t = true := by rw [← ht]; exact lastNotSpace_clean_text rf t
  have hhj : headNotSpace (c ++ ' ' :: t) = true := by
    rw [headNotSpace_append _ hcne]
    exact hhc
  have hlj : lastNotSpace (c ++ ' ' :: t) = true := by
    rw [lastNotSpace_append c (by simp)]
    cases t with
    | nil => exact absurd rfl htne
    | cons d ds =>
      rw [lastNotSpace_cons_cons]
      exact hlt
  have hsj : spacedOk (c ++ ' ' :: t) = true := spacedOk_append_sep hsc hlc hst hht
  have hnj : noSpBeforePunct (c ++ ' ' :: t) = true :=
    noSpBeforePunct_append_sep hnc hlc hnt hht hp htne
  have hstripj : strip (c ++ ' ' :: t) = c ++ ' ' :: t := strip_id hhj hlj
  have hcolj : collapseWs (c ++ ' ' :: t) = c ++ ' ' :: t := by
    unfold collapseWs
    exact collapseWsAux_id hsj
  have hfixj : fixPunct (c ++ ' ' :: t) = c ++ ' ' :: t := fixPunct_id hnj
  have hfil : (if rf then fillerSub (c ++ ' ' :: t) else (c ++ ' ' :: t)) = c ++ ' ' :: t := by
    cases rf with
    | false => rfl
    | true =>
      rw [if_pos rfl, fillerSub_eq_scan]
      apply fillerScan_eq_self (c ++ ' ' :: t).length _ (Nat.le_refl _) false
      rw [if_neg (by simp)]
      intro w hw
      rw [wordsOf_append_sep (show isWordChar ' ' = false by decide)
        c.length c (Nat.le_refl _) t] at hw
      rcases List.mem_append.mp hw with h | h
      · exact no_filler_words_of_clean hc w h
      · exact no_filler_words_of_clean ht w h
  show strip (fixPunct (collapseWs (strip
    (if rf then fillerSub (c ++ ' ' :: t) else c ++ ' ' :: t)))) = c ++ ' ' :: t
  rw [hfil, hstripj, hcolj, hfixj, hstripj]

theorem clean_text_nil (rf : Bool) : clean_text rf [] = [] := by
  cases rf <;> rfl

theorem commitFinal_preserves_clean {rf : Bool} {c : List Char} (raw : List Char)
    (hc : clean_text rf c = c) (hp : headNotPunct (clean_text rf raw) = true) :
    clean_text rf (commitFinal rf c raw) = commitFinal rf c raw := by
  show clean_text rf
      (if (clean_text rf raw).isEmpty then c
       else if c.isEmpty then clean_text rf raw
       else strip (c ++ ' ' :: clean_text rf raw)) =
      (if (clean_text rf raw).isEmpty then c
       else if c.isEmpty then clean_text rf raw
       else strip (c ++ ' ' :: clean_text rf raw))
  by_cases h1 : (clean_text rf raw).isEmpty = true
  · rw [if_pos h1]
    exact hc
  · rw [if_neg h1]
    by_cases h2 : c.isEmpty = true
    · rw [if_pos h2]
      exact clean_text_idem rf raw
    · rw [if_neg h2]
      have hcne : c ≠ [] := by
        intro h
        rw [h] at h2
        exact h2 rfl
      have htne : clean_text rf raw ≠ [] := by
        intro h
        rw [h] at h1
        exact h1 rfl
      have hht : headNotSpace c = true := by
        rw [← hc]
        exact headNotSpace_clean_text rf c
      have hlt : lastNotSpace (clean_text rf raw) = true := lastNotSpace_clean_text rf raw
      have hstripj : strip (c ++ ' ' :: clean_text rf raw) = c ++ ' ' :: clean_text rf raw := by
        apply strip_id
        · rw [headNotSpace_append _ hcne]
          exact hht
        · rw [lastNotSpace_append c (by simp)]
          cases hcr : clean_text rf raw with
          | nil => exact absurd hcr htne
          | cons d ds =>
            rw [lastNotSpace_cons_cons, ← hcr]
            exact hlt
      rw [hstripj]
      exact clean_text_join hc (clean_text_idem rf raw) hcne htne hp

theorem foldl_commitFinal_clean (rf : Bool) (raws : List (List Char)) :
    ∀ (c : List Char), clean_text rf c = c →
      (∀ r ∈ raws, headNotPunct (clean_text rf r) = true) →
      clean_text rf (raws.foldl (commitFinal rf) c) = raws.foldl (commitFinal rf) c := by
  induction raws with
  | nil =>
    intro c hc _
    exact hc
  | cons r rs ih =>
    intro c hc hp
    rw [List.foldl_cons]
    exact ih (commitFinal rf c r)
      (commitFinal_preserves_clean r hc (hp r (List.mem_cons_self _ _)))
      (fun x hx => hp x (List.mem_cons_of_mem _ hx))

/-! ### Claim theorems -/

/-- C3: the text normalizer is idempotent: for every string `x`,
`clean(clean(x)) == clean(x)`, with filler removal either enabled or
disabled. -/
theorem claim_C3 (removeFillers : Bool) (x : List Char) :
    clean_text removeFillers (clean_text removeFillers x) = clean_text removeFillers x :=
  clean_text_idem removeFillers x

/-- C4 (as stated, refuted): after the commits `"hi"` then `", yes"` the
committed transcript is `"hi , yes"`, and re-cleaning it gives `"hi, yes"`:
the joined committed text is not a fixed point of `clean`, because a cleaned
segment may begin with a punctuation mark and the join then inserts a space
in front of it. -/
theorem claim_C4_counterexample :
    clean_text REMOVE_FILLERS (["hi".data, ", yes".data].foldl (commitFinal REMOVE_FILLERS) [])
      ≠ ["hi".data, ", yes".data].foldl (commitFinal REMOVE_FILLERS) [] := by
  decide

/-- C4 amended: after every sequence of final commits in which no cleaned
segment begins with one of the six punctuation marks, the committed
transcript is clean by construction: applying `clean` to the full joined
committed text returns it unchanged. -/
theorem claim_C4_amended (removeFillers : Bool) (raws : List (List Char))
    (h : ∀ r ∈ raws, headNotPunct (clean_text removeFillers r) = true) :
    clean_text removeFillers (raws.foldl (commitFinal removeFillers) [])
      = raws.foldl (commitFinal removeFillers) [] :=
  foldl_commitFinal_clean removeFillers raws [] (clean_text_nil removeFillers) h

theorem claim_C4_witness :
    (∀ r ∈ ["hello um".data, "world !".data], headNotPunct (clean_text true r) = true) ∧
    clean_text true (["hello um".data, "world !".data].foldl (commitFinal true) [])
      = ["hello um".data, "world !".data].foldl (commitFinal true) [] :=
  ⟨by decide, claim_C4_amended true _ (by decide)⟩

/-- C5: with filler removal enabled,
`clean("um, I think uhhh this works")` returns exactly
`"I think this works"`; with filler removal disabled the input is returned
unchanged, filler words included. -/
theorem claim_C5 :
    clean_text true "um, I think uhhh this works".data = "I think this works".data ∧
    clean_text false "um, I think uhhh this works".data
      = "um, I think uhhh this works".data := by
  decide

/-- C6: a final result whose text cleans to the empty string is a no-op: the
committed transcript is unchanged (no empty segment is appended). -/
theorem claim_C6 (removeFillers softWrap : Bool) (width : Nat) (st : LoopState)
    (r : RecogResult) (hfin : r.isFinal = true) (h : clean_text removeFillers r.text = []) :
    (mainStep removeFillers softWrap width st r).committed_text = st.committed_text := by
  have hcommit : commitFinal removeFillers st.committed_text r.text = st.committed_text := by
    simp [commitFinal, h]
  simp [mainStep, hfin, hcommit]

theorem claim_C6_witness :
    (RecogResult.mk " um, ".data true).isFinal = true ∧
    clean_text true (RecogResult.mk " um, ".data true).text = [] ∧
    (mainStep true true 100 ⟨"hi".data, [], []⟩ ⟨" um, ".data, true⟩).committed_text
      = "hi".data :=
  ⟨rfl, by decide, claim_C6 true true 100 ⟨"hi".data, [], []⟩ ⟨" um, ".data, true⟩ rfl (by decide)⟩

/-- C1 (as stated, refuted): committing the final segment `"hello"` twice in
a row from an empty transcript yields `"hello hello"`, not `"hello"`: the
code keeps no record of the previously committed segment and appends the
duplicate again. -/
theorem claim_C1_counterexample :
    commitFinal REMOVE_FILLERS (commitFinal REMOVE_FILLERS [] "hello".data) "hello".data
      ≠ commitFinal REMOVE_FILLERS [] "hello".data := by
  decide

/-- C1 amended: committing a final segment whose cleaned text is non-empty —
in particular one equal to the immediately preceding committed segment — onto
a non-empty committed transcript (whose first character is not whitespace, as
holds for every reachable transcript) is never a no-op: the segment is
appended again after a space separator. -/
theorem claim_C1_amended (removeFillers : Bool) (c raw : List Char) (hcne : c ≠ [])
    (hhead : headNotSpace c = true) (htxt : clean_text removeFillers raw ≠ []) :
    commitFinal removeFillers c raw = c ++ ' ' :: clean_text removeFillers raw ∧
    commitFinal removeFillers c raw ≠ c := by
  have h1 : ¬((clean_text removeFillers raw).isEmpty = true) :=
    fun hh => htxt (List.isEmpty_iff.mp hh)
  have h2 : ¬(c.isEmpty = true) := fun hh => hcne (List.isEmpty_iff.mp hh)
  have heq : commitFinal removeFillers c raw
      = strip (c ++ ' ' :: clean_text removeFillers raw) := by
    show (if (clean_text removeFillers raw).isEmpty then c
          else if c.isEmpty then clean_text removeFillers raw
          else strip (c ++ ' ' :: clean_text removeFillers raw)) = _
    rw [if_neg h1, if_neg h2]
  have hstrip : strip (c ++ ' ' :: clean_text removeFillers raw)
      = c ++ ' ' :: clean_text removeFillers raw := by
    apply strip_id
    · rw [headNotSpace_append _ hcne]
      exact hhead
    · rw [lastNotSpace_append c (by simp)]
      cases hcr : clean_text removeFillers raw with
      | nil => exact absurd hcr htxt
      | cons d ds =>
        rw [lastNotSpace_cons_cons, ← hcr]
        exact lastNotSpace_clean_text removeFillers raw
  refine ⟨heq.trans hstrip, ?_⟩
  rw [heq.trans hstrip]
  intro hcontra
  have hlen := congrArg List.length hcontra
  simp only [List.length_append, List.length_cons] at hlen
  omega

theorem claim_C1_witness :
    "hello".data ≠ ([] : List Char) ∧
    headNotSpace "hello".data = true ∧
    clean_text true "hello".data ≠ [] ∧
    (commitFinal true "hello".data "hello".data
        = "hello".data ++ ' ' :: clean_text true "hello".data ∧
      commitFinal true "hello".data "hello".data ≠ "hello".data) :=
  ⟨by decide, by decide, by decide,
    claim_C1_amended true "hello".data "hello".data (by decide) (by decide) (by decide)⟩

/-- C2 (as stated, refuted): feeding the four scenario results with filler
removal on does not produce `"testing one two three"`: the second final does
not supersede or dedup-extend the first, it is appended whole. -/
theorem claim_C2_counterexample :
    exitPrint REMOVE_FILLERS (runSession REMOVE_FILLERS SOFT_WRAP 100
      [⟨"testing um one".data, false⟩, ⟨"testing one".data, true⟩,
       ⟨"two three".data, false⟩, ⟨"testing one two three".data, true⟩]).committed_text
      ≠ "testing one two three".data := by
  decide

/-- C2 amended: the scenario's final transcript is
`"testing one testing one two three"`: each final's cleaned text is appended
verbatim, so the overlapping second final duplicates `"testing one"`. -/
theorem claim_C2_amended :
    exitPrint REMOVE_FILLERS (runSession REMOVE_FILLERS SOFT_WRAP 100
      [⟨"testing um one".data, false⟩, ⟨"testing one".data, true⟩,
       ⟨"two three".data, false⟩, ⟨"testing one two three".data, true⟩]).committed_text
      = "testing one testing one two three".data := by
  decide

/-- C7: interim text is fully replaced, never merged: after two consecutive
interim results with no intervening final, the committed text is unchanged,
the stored interim is the cleaned text of the second result alone, and the
arguments passed to the renderer are the original committed text paired with
the cleaned second interim — independent of the first interim. -/
theorem claim_C7 (removeFillers softWrap : Bool) (width : Nat) (st : LoopState)
    (r1 r2 : RecogResult) (h1 : r1.isFinal = false) (h2 : r2.isFinal = false) :
    (mainStep removeFillers softWrap width st r1).committed_text = st.committed_text ∧
    (mainStep removeFillers softWrap width
        (mainStep removeFillers softWrap width st r1) r2).current_interim
      = clean_text removeFillers r2.text ∧
    renderArgsOfStep removeFillers (mainStep removeFillers softWrap width st r1) r2
      = (st.committed_text, clean_text removeFillers r2.text) := by
  simp [mainStep, renderArgsOfStep, h1, h2]

theorem claim_C7_witness :
    (RecogResult.mk "foo".data false).isFinal = false ∧
    (RecogResult.mk "bar".data false).isFinal = false ∧
    ((mainStep true true 100 ⟨"hello".data, "x".data, "y".data⟩
        ⟨"foo".data, false⟩).committed_text = "hello".data ∧
      (mainStep true true 100 (mainStep true true 100 ⟨"hello".data, "x".data, "y".data⟩
          ⟨"foo".data, false⟩) ⟨"bar".data, false⟩).current_interim
        = clean_text true "bar".data ∧
      renderArgsOfStep true (mainStep true true 100 ⟨"hello".data, "x".data, "y".data⟩
          ⟨"foo".data, false⟩) ⟨"bar".data, false⟩
        = ("hello".data, clean_text true "bar".data)) :=
  ⟨rfl, rfl, claim_C7 true true 100 ⟨"hello".data, "x".data, "y".data⟩
    ⟨"foo".data, false⟩ ⟨"bar".data, false⟩ rfl rfl⟩

theorem render_live_eq (rf sw : Bool) (width : Nat) (lastR c i : List Char) :
    render_live rf sw width lastR c i =
      (if (if sw then wrapText width (renderText rf c i) else renderText rf c i) ≠ lastR
       then ⟨(if sw then wrapText width (renderText rf c i) else renderText rf c i), true⟩
       else ⟨lastR, false⟩) := by
  unfold render_live
  cases sw <;> rfl

/-- C8: rendering is idempotent with respect to terminal output: a second
`render_live` call with identical committed text, interim text and terminal
width performs no terminal write and leaves the render snapshot unchanged. -/
theorem claim_C8 (removeFillers softWrap : Bool) (width : Nat)
    (lastRendered committed interim : List Char) :
    (render_live removeFillers softWrap width
        (render_live removeFillers softWrap width lastRendered committed interim).rendered
        committed interim).wrote = false ∧
    (render_live removeFillers softWrap width
        (render_live removeFillers softWrap width lastRendered committed interim).rendered
        committed interim).rendered
      = (render_live removeFillers softWrap width lastRendered committed interim).rendered := by
  rw [render_live_eq, render_live_eq]
  by_cases h : (if softWrap then wrapText width (renderText removeFillers committed interim)
      else renderText removeFillers committed interim) ≠ lastRendered
  · rw [if_pos h]
    simp
  · rw [if_neg h]
    push_neg at h
    simp [h]

/-- C9 (modelled from the spec, section 4.3 `singleLineTail`): whenever the
candidate text is longer than `terminalWidth - 2` characters (and the width
is at least 3, so that the cap is meaningful), the single-line tail view is
at most `terminalWidth - 2` characters long, begins with the ellipsis
marker, and its remainder after the marker consists of the true trailing
characters of the cleaned candidate text. -/
theorem claim_C9 (width : Nat) (committed interim : List Char) (hw : 3 ≤ width)
    (hlen : width - 2 < (renderText REMOVE_FILLERS committed interim).length) :
    (singleLineTailView width (renderText REMOVE_FILLERS committed interim)).length
      ≤ width - 2 ∧
    (singleLineTailView width (renderText REMOVE_FILLERS committed interim)).head?
      = some '…' ∧
    List.IsSuffix
      ((singleLineTailView width (renderText REMOVE_FILLERS committed interim)).drop 1)
      (renderText REMOVE_FILLERS committed interim) := by
  have hview : singleLineTailView width (renderText REMOVE_FILLERS committed interim)
      = '…' :: (renderText REMOVE_FILLERS committed interim).drop
          ((renderText REMOVE_FILLERS committed interim).length - (width - 2 - 1)) := by
    unfold singleLineTailView
    rw [if_pos hlen]
  refine ⟨?_, ?_, ?_⟩
  · rw [hview]
    simp only [List.length_cons, List.length_drop]
    omega
  · rw [hview]
    rfl
  · rw [hview]
    show List.IsSuffix ((renderText REMOVE_FILLERS committed interim).drop _)
      (renderText REMOVE_FILLERS committed interim)
    exact List.drop_suffix _ _

theorem claim_C9_witness :
    3 ≤ 20 ∧
    20 - 2 < (renderText REMOVE_FILLERS
      "the quick brown fox jumps over the lazy sleeping dog".data []).length ∧
    ((singleLineTailView 20 (renderText REMOVE_FILLERS
        "the quick brown fox jumps over the lazy sleeping dog".data [])).length ≤ 20 - 2 ∧
      (singleLineTailView 20 (renderText REMOVE_FILLERS
        "the quick brown fox jumps over the lazy sleeping dog".data [])).head? = some '…' ∧
      List.IsSuffix ((singleLineTailView 20 (renderText REMOVE_FILLERS
        "the quick brown fox jumps over the lazy sleeping dog".data [])).drop 1)
        (renderText REMOVE_FILLERS
          "the quick brown fox jumps over the lazy sleeping dog".data [])) :=
  ⟨by decide, by decide,
    claim_C9 20 "the quick brown fox jumps over the lazy sleeping dog".data []
      (by decide) (by decide)⟩

/-- C10: at session end the printed transcript is `clean` applied to the
accumulated committed text — the exit path re-cleans the join — so the
printed transcript is a fixed point of `clean`; when the committed text
cleans to empty, the placeholder message is printed instead. -/
theorem claim_C10 (removeFillers : Bool) (committed : List Char) :
    (clean_text removeFillers committed ≠ [] →
      exitPrint removeFillers committed = clean_text removeFillers committed ∧
      clean_text removeFillers (exitPrint removeFillers committed)
        = exitPrint removeFillers committed) ∧
    (clean_text removeFillers committed = [] →
      exitPrint removeFillers committed = placeholderMsg) := by
  constructor
  · intro h
    have hne : ¬((clean_text removeFillers committed).isEmpty = true) :=
      fun hh => h (List.isEmpty_iff.mp hh)
    have hp : exitPrint removeFillers committed = clean_text removeFillers committed := by
      show (if (clean_text removeFillers committed).isEmpty then placeholderMsg
            else clean_text removeFillers committed) = _
      rw [if_neg hne]
    refine ⟨hp, ?_⟩
    rw [hp]
    exact clean_text_idem removeFillers committed
  · intro h
    show (if (clean_text removeFillers committed).isEmpty then placeholderMsg
          else clean_text removeFillers committed) = _
    rw [h]
    rfl

theorem claim_C10_witness :
    clean_text true "hi   there".data ≠ [] ∧
    (exitPrint true "hi   there".data = clean_text true "hi   there".data ∧
      clean_text true (exitPrint true "hi   there".data) = exitPrint true "hi   there".data) :=
  ⟨by decide, (claim_C10 true "hi   there".data).1 (by decide)⟩
